import Mathlib

/-!
Verification development for the researcher repository: a shallow embedding of
the retrieval-and-orchestration engine (vector index store, figure region
detector, task orchestrator) together with proofs of its specified properties.

Coordinates of PDF bounding boxes and components of embedding vectors are
Python floats in the source; the algorithms use only addition, subtraction,
multiplication and order comparisons on them, so they are embedded over an
arbitrary linear ordered commutative ring. Concrete witnesses instantiate the
ring with the integers. Python dictionaries keyed by str(i) for integers i
are modelled as association lists keyed by the integer itself (str is
injective on integers, and Python dicts preserve insertion order, as
association lists do).
-/

namespace Researcher

/-- A bounding box, as in fitz.Rect: corners (x0, y0) and (x1, y1). -/
structure Rect (β : Type) where
  x0 : β
  y0 : β
  x1 : β
  y1 : β
deriving DecidableEq, Repr

variable {β : Type} [LinearOrderedCommRing β]

/-- fitz.Rect.is_empty: a rectangle is empty when its width or height is not
positive. -/
def Rect.isEmptyB (r : Rect β) : Bool :=
  r.x1 ≤ r.x0 || r.y1 ≤ r.y0

/-- The inflation used in merge_nearby_bboxes (llm_logic.py line 364):
r + (-threshold, -threshold, threshold, threshold). -/
def Rect.inflate (r : Rect β) (t : β) : Rect β :=
  ⟨r.x0 - t, r.y0 - t, r.x1 + t, r.y1 + t⟩

/-- fitz.Rect.intersects: true when neither rectangle is empty and the
common rectangle is not empty (strictly positive width and height). -/
def Rect.intersectsB (a b : Rect β) : Bool :=
  !a.isEmptyB && !b.isEmptyB &&
    decide (max a.x0 b.x0 < min a.x1 b.x1) && decide (max a.y0 b.y0 < min a.y1 b.y1)

/-- fitz rectangle union (the | operator in merge_nearby_bboxes line 368,
Rect.include_rect delegating to MuPDF fz_union_rect): an empty operand is
ignored (the other operand is returned unchanged, the first one when both
are empty); for two nonempty rectangles the result is the smallest rectangle
containing both. -/
def Rect.union (a b : Rect β) : Rect β :=
  if b.isEmptyB then a
  else if a.isEmptyB then b
  else ⟨min a.x0 b.x0, min a.y0 b.y0, max a.x1 b.x1, max a.y1 b.y1⟩

/-- The proximity test of merge_nearby_bboxes (lines 363-366): the first
rectangle, inflated by the threshold, intersects the second. In the source
the first argument is the rectangle with the larger list index (r1). -/
def near (t : β) (r1 r2 : Rect β) : Bool :=
  (r1.inflate t).intersectsB r2

/-- Inner loop of merge_nearby_bboxes (for j in range(i-1, -1, -1)): given
r1 = rects[i] and the list rects[0..i-1] in reversed order (so that the head
is the candidate with the largest j, matching the descending scan), find the
first j with near r1 rects[j]; replace rects[j] by the union and report the
updated reversed prefix. Returns none when no j matches. -/
def tryMergeInto (t : β) (r1 : Rect β) : List (Rect β) → Option (List (Rect β))
  | [] => none
  | b :: rest =>
    if near t r1 b then some (r1.union b :: rest)
    else (tryMergeInto t r1 rest).map (b :: ·)

/-- Outer loop of merge_nearby_bboxes (for i in range(len(rects)-1, -1, -1)):
the input is the rectangle list in reversed order, so the head is rects[i]
for the largest i. On the first (i, j) pair that merges, rects[j] is replaced
by the union and rects[i] is removed, exactly as rects[j] = merged;
rects.pop(i) does; elements with index above i are untouched. Returns the
updated reversed list, or none when no pair merges. -/
def scanRev (t : β) : List (Rect β) → Option (List (Rect β))
  | [] => none
  | r1 :: revRest =>
    match tryMergeInto t r1 revRest with
    | some revRest1 => some revRest1
    | none => (scanRev t revRest).map (r1 :: ·)

/-- One iteration of the while loop of merge_nearby_bboxes: perform the first
merge found by the descending double scan, or report that no pair merges. -/
def scanStep (t : β) (l : List (Rect β)) : Option (List (Rect β)) :=
  (scanRev t l.reverse).map List.reverse

theorem tryMergeInto_length {t : β} {r1 : Rect β} :
    ∀ {l l1 : List (Rect β)}, tryMergeInto t r1 l = some l1 → l1.length = l.length
  | [], _, h => by simp [tryMergeInto] at h
  | b :: rest, l1, h => by
    simp only [tryMergeInto] at h
    split at h
    · cases h; rfl
    · cases hrec : tryMergeInto t r1 rest with
      | none => rw [hrec] at h; simp at h
      | some l2 =>
        rw [hrec] at h
        simp only [Option.map_some'] at h
        cases h
        simp [tryMergeInto_length hrec]

theorem scanRev_length {t : β} :
    ∀ {l l1 : List (Rect β)}, scanRev t l = some l1 → l1.length + 1 = l.length
  | [], _, h => by simp [scanRev] at h
  | r1 :: revRest, l1, h => by
    simp only [scanRev] at h
    cases htm : tryMergeInto t r1 revRest with
    | some l2 =>
      rw [htm] at h
      cases h
      simp [tryMergeInto_length htm]
    | none =>
      rw [htm] at h
      cases hrec : scanRev t revRest with
      | none => rw [hrec] at h; simp at h
      | some l2 =>
        rw [hrec] at h
        simp only [Option.map_some'] at h
        cases h
        simp only [List.length_cons]
        rw [scanRev_length hrec]

theorem scanStep_length {t : β} {l l1 : List (Rect β)} (h : scanStep t l = some l1) :
    l1.length + 1 = l.length := by
  simp only [scanStep] at h
  cases hrev : scanRev t l.reverse with
  | none => rw [hrev] at h; simp at h
  | some l2 =>
    rw [hrev] at h
    simp only [Option.map_some'] at h
    cases h
    have := scanRev_length hrev
    simpa using this

/-- The while merged loop of merge_nearby_bboxes: iterate single merges until
no pair of boxes is near. Well founded because each merge removes a box. -/
def mergeLoop (t : β) (l : List (Rect β)) : List (Rect β) :=
  match h : scanStep t l with
  | none => l
  | some l1 => mergeLoop t l1
termination_by l.length
decreasing_by
  have := scanStep_length h
  omega

/-- merge_nearby_bboxes (llm_logic.py lines 344-376). The default threshold in
the source is 20; the figure pipeline calls it with 15 and 25. -/
def merge_nearby_bboxes (t : β) (bboxes : List (Rect β)) : List (Rect β) :=
  if bboxes.isEmpty then [] else mergeLoop t bboxes

theorem mergeLoop_none {t : β} {l : List (Rect β)} (h : scanStep t l = none) :
    mergeLoop t l = l := by
  rw [mergeLoop, h]

theorem mergeLoop_step {t : β} {l l1 : List (Rect β)} (h : scanStep t l = some l1) :
    mergeLoop t l = mergeLoop t l1 := by
  rw [mergeLoop, h]

theorem mergeLoop_fixed (t : β) (l : List (Rect β)) :
    scanStep t (mergeLoop t l) = none := by
  rw [mergeLoop]
  split
  · assumption
  · next l1 h =>
    have := scanStep_length h
    exact mergeLoop_fixed t l1
termination_by l.length
decreasing_by
  rename_i heq
  have := scanStep_length heq
  omega

theorem mergeLoop_length_le (t : β) (l : List (Rect β)) :
    (mergeLoop t l).length ≤ l.length := by
  rw [mergeLoop]
  split
  · exact Nat.le_refl _
  · next l1 h =>
    have h1 := scanStep_length h
    have h2 := mergeLoop_length_le t l1
    omega
termination_by l.length
decreasing_by
  rename_i heq
  have := scanStep_length heq
  omega

/-- C7: for every finite list of input bounding boxes, each merge step of the
fixed-point merge strictly decreases the number of boxes (by exactly one), and
the procedure reaches a fixed point with no further merge possible, with at
most as many boxes as it started with. -/
theorem merge_nearby_bboxes_terminates (t : β) (l : List (Rect β)) :
    (∀ l1, scanStep t l = some l1 → l1.length < l.length) ∧
      scanStep t (merge_nearby_bboxes t l) = none ∧
      (merge_nearby_bboxes t l).length ≤ l.length := by
  refine ⟨fun l1 h => ?_, ?_, ?_⟩
  · have := scanStep_length h
    omega
  · rw [merge_nearby_bboxes]
    split
    · rfl
    · exact mergeLoop_fixed t l
  · rw [merge_nearby_bboxes]
    split
    · simp
    · exact mergeLoop_length_le t l

/-- Witness for C7 at a concrete input: two overlapping boxes merge in one
step, the count drops from 2 to 1, and the fixed point is reached. -/
theorem merge_nearby_bboxes_terminates_witness :
    scanStep (15 : ℤ) [(⟨0, 0, 10, 10⟩ : Rect ℤ), ⟨5, 5, 20, 20⟩] = some [⟨0, 0, 20, 20⟩] ∧
      ([(⟨0, 0, 20, 20⟩ : Rect ℤ)]).length <
        [(⟨0, 0, 10, 10⟩ : Rect ℤ), ⟨5, 5, 20, 20⟩].length ∧
      scanStep (15 : ℤ) (merge_nearby_bboxes 15 [(⟨0, 0, 10, 10⟩ : Rect ℤ), ⟨5, 5, 20, 20⟩]) =
        none := by
  have h : scanStep (15 : ℤ) [(⟨0, 0, 10, 10⟩ : Rect ℤ), ⟨5, 5, 20, 20⟩] =
      some [⟨0, 0, 20, 20⟩] := by decide
  refine ⟨h, ?_, ?_⟩
  · exact (merge_nearby_bboxes_terminates 15 [⟨0, 0, 10, 10⟩, ⟨5, 5, 20, 20⟩]).1 _ h
  · exact (merge_nearby_bboxes_terminates 15 [⟨0, 0, 10, 10⟩, ⟨5, 5, 20, 20⟩]).2.1

/-- C8 counterexample: the fixed-point merge is NOT order-independent. With a
nonempty box N = (0,0,10,10) and a zero-width box Z = (20,5,20,6), in the
order [N, Z] the inner scan inflates Z and merges the pair (fitz.Rect.intersects
only requires the non-inflated side to be nonempty), the union ignoring the
empty operand Z so that the pair collapses to N alone; in the order [Z, N] the
scan inflates N and tests against the empty Z, which fitz.Rect.intersects
rejects, so nothing merges: the two final region sets differ. -/
theorem merge_nearby_bboxes_order_dependent :
    List.Perm [(⟨0, 0, 10, 10⟩ : Rect ℤ), ⟨20, 5, 20, 6⟩] [⟨20, 5, 20, 6⟩, ⟨0, 0, 10, 10⟩] ∧
      merge_nearby_bboxes (15 : ℤ) [(⟨0, 0, 10, 10⟩ : Rect ℤ), ⟨20, 5, 20, 6⟩] =
        [⟨0, 0, 10, 10⟩] ∧
      merge_nearby_bboxes (15 : ℤ) [(⟨20, 5, 20, 6⟩ : Rect ℤ), ⟨0, 0, 10, 10⟩] =
        [⟨20, 5, 20, 6⟩, ⟨0, 0, 10, 10⟩] ∧
      (merge_nearby_bboxes (15 : ℤ) [(⟨0, 0, 10, 10⟩ : Rect ℤ), ⟨20, 5, 20, 6⟩]).toFinset ≠
        (merge_nearby_bboxes (15 : ℤ) [(⟨20, 5, 20, 6⟩ : Rect ℤ), ⟨0, 0, 10, 10⟩]).toFinset := by
  have h1 : scanStep (15 : ℤ) [(⟨0, 0, 10, 10⟩ : Rect ℤ), ⟨20, 5, 20, 6⟩] =
      some [⟨0, 0, 10, 10⟩] := by decide
  have h2 : scanStep (15 : ℤ) [(⟨0, 0, 10, 10⟩ : Rect ℤ)] = none := by decide
  have h3 : scanStep (15 : ℤ) [(⟨20, 5, 20, 6⟩ : Rect ℤ), ⟨0, 0, 10, 10⟩] = none := by decide
  have e1 : merge_nearby_bboxes (15 : ℤ) [(⟨0, 0, 10, 10⟩ : Rect ℤ), ⟨20, 5, 20, 6⟩] =
      [⟨0, 0, 10, 10⟩] := by
    rw [merge_nearby_bboxes, if_neg (by decide), mergeLoop_step h1, mergeLoop_none h2]
  have e2 : merge_nearby_bboxes (15 : ℤ) [(⟨20, 5, 20, 6⟩ : Rect ℤ), ⟨0, 0, 10, 10⟩] =
      [⟨20, 5, 20, 6⟩, ⟨0, 0, 10, 10⟩] := by
    rw [merge_nearby_bboxes, if_neg (by decide), mergeLoop_none h3]
  refine ⟨by decide, e1, e2, ?_⟩
  rw [e1, e2]
  decide

theorem isEmptyB_false_iff {r : Rect β} :
    r.isEmptyB = false ↔ r.x0 < r.x1 ∧ r.y0 < r.y1 := by
  simp [Rect.isEmptyB, not_le]

theorem near_iff {t : β} {a b : Rect β} :
    near t a b = true ↔
      a.x0 - t < a.x1 + t ∧ a.y0 - t < a.y1 + t ∧ b.x0 < b.x1 ∧ b.y0 < b.y1 ∧
        a.x0 - t < b.x1 ∧ b.x0 < a.x1 + t ∧ a.y0 - t < b.y1 ∧ b.y0 < a.y1 + t := by
  simp only [near, Rect.intersectsB, Rect.inflate, Rect.isEmptyB, Bool.and_eq_true,
    Bool.not_eq_true', Bool.or_eq_false_iff, decide_eq_false_iff_not, decide_eq_true_eq,
    not_le, max_lt_iff, lt_min_iff]
  tauto

theorem near_symm {t : β} {a b : Rect β} (ht : 0 ≤ t) (ha : a.isEmptyB = false)
    (hb : b.isEmptyB = false) (h : near t a b = true) : near t b a = true := by
  rw [isEmptyB_false_iff] at ha hb
  rw [near_iff] at h ⊢
  obtain ⟨h1, h2, h3, h4, h5, h6, h7, h8⟩ := h
  refine ⟨?_, ?_, ?_, ?_, ?_, ?_, ?_, ?_⟩ <;> linarith [ha.1, ha.2, hb.1, hb.2]

theorem union_eq_of_nonempty {a b : Rect β} (ha : a.isEmptyB = false)
    (hb : b.isEmptyB = false) :
    a.union b = ⟨min a.x0 b.x0, min a.y0 b.y0, max a.x1 b.x1, max a.y1 b.y1⟩ := by
  rw [Rect.union, if_neg (by simp [hb]), if_neg (by simp [ha])]

theorem near_union_left {t : β} {a b c : Rect β} (ha : a.isEmptyB = false)
    (h : near t a c = true) : near t (a.union b) c = true := by
  by_cases hb : b.isEmptyB
  · rw [Rect.union, if_pos hb]; exact h
  · have hb2 : b.isEmptyB = false := by simpa using hb
    rw [near_iff] at h ⊢
    obtain ⟨h1, h2, h3, h4, h5, h6, h7, h8⟩ := h
    simp only [union_eq_of_nonempty ha hb2]
    refine ⟨?_, ?_, ?_, ?_, ?_, ?_, ?_, ?_⟩ <;>
      linarith [min_le_left a.x0 b.x0, min_le_left a.y0 b.y0, le_max_left a.x1 b.x1,
        le_max_left a.y1 b.y1]

theorem near_union_right {t : β} {a b c : Rect β} (hb : b.isEmptyB = false)
    (h : near t b c = true) : near t (a.union b) c = true := by
  by_cases ha : a.isEmptyB
  · rw [Rect.union, if_neg (by simp [hb]), if_pos ha]; exact h
  · have ha2 : a.isEmptyB = false := by simpa using ha
    rw [near_iff] at h ⊢
    obtain ⟨h1, h2, h3, h4, h5, h6, h7, h8⟩ := h
    simp only [union_eq_of_nonempty ha2 hb]
    refine ⟨?_, ?_, ?_, ?_, ?_, ?_, ?_, ?_⟩ <;>
      linarith [min_le_right a.x0 b.x0, min_le_right a.y0 b.y0, le_max_right a.x1 b.x1,
        le_max_right a.y1 b.y1]

theorem union_comm {a b : Rect β} (ha : a.isEmptyB = false) (hb : b.isEmptyB = false) :
    a.union b = b.union a := by
  rw [union_eq_of_nonempty ha hb, union_eq_of_nonempty hb ha]
  simp [min_comm, max_comm]

theorem union_isEmptyB_false {a b : Rect β} (ha : a.isEmptyB = false) :
    (a.union b).isEmptyB = false := by
  by_cases hb : b.isEmptyB
  · rw [Rect.union, if_pos hb]; exact ha
  · have hb2 : b.isEmptyB = false := by simpa using hb
    rw [union_eq_of_nonempty ha hb2]
    simp only [isEmptyB_false_iff] at ha ⊢
    constructor <;>
      linarith [min_le_left a.x0 b.x0, min_le_left a.y0 b.y0, le_max_left a.x1 b.x1,
        le_max_left a.y1 b.y1, ha.1, ha.2]

theorem union_assoc {a b c : Rect β} (ha : a.isEmptyB = false) (hb : b.isEmptyB = false)
    (hc : c.isEmptyB = false) : (a.union b).union c = a.union (b.union c) := by
  rw [union_eq_of_nonempty (union_isEmptyB_false ha) hc,
    union_eq_of_nonempty ha (union_isEmptyB_false hb),
    union_eq_of_nonempty ha hb, union_eq_of_nonempty hb hc]
  simp [min_assoc, max_assoc]

/-- All boxes of a multiset are nonempty in the fitz sense. -/
def GoodM (S : Multiset (Rect β)) : Prop :=
  ∀ r ∈ S, r.isEmptyB = false

/-- One abstract merge step on the multiset of boxes: pick two boxes, the
first of which (the one the scan inflates) is near the second, and replace
the pair by its union. Each iteration of the while loop of
merge_nearby_bboxes performs exactly one such step. -/
def MStep (t : β) (S T : Multiset (Rect β)) : Prop :=
  ∃ a b rest, S = a ::ₘ b ::ₘ rest ∧ near t a b = true ∧ T = a.union b ::ₘ rest

/-- The merge step restricted to multisets of nonempty boxes. -/
def StepG (t : β) (S T : Multiset (Rect β)) : Prop :=
  GoodM S ∧ MStep t S T

theorem goodM_mstep {t : β} {S T : Multiset (Rect β)} (hg : GoodM S) (h : MStep t S T) :
    GoodM T := by
  obtain ⟨a, b, rest, hS, hnear, hT⟩ := h
  intro r hr
  rw [hT] at hr
  rcases Multiset.mem_cons.mp hr with h1 | h1
  · subst h1
    exact union_isEmptyB_false (hg a (by rw [hS]; exact Multiset.mem_cons_self _ _))
  · exact hg r (by rw [hS]; exact Multiset.mem_cons_of_mem (Multiset.mem_cons_of_mem h1))

theorem mstep_cons {t : β} {S T : Multiset (Rect β)} (x : Rect β) (h : MStep t S T) :
    MStep t (x ::ₘ S) (x ::ₘ T) := by
  obtain ⟨a, b, rest, hS, hnear, hT⟩ := h
  refine ⟨a, b, x ::ₘ rest, ?_, hnear, ?_⟩
  · rw [hS, Multiset.cons_swap x a, Multiset.cons_swap x b]
  · rw [hT, Multiset.cons_swap x (Rect.union a b)]

theorem goodM_of_eq {S T : Multiset (Rect β)} (h : S = T) (hg : GoodM S) : GoodM T := by
  rw [← h]; exact hg

set_option maxHeartbeats 1000000 in
/-- Local diamond for the merge step on multisets of nonempty boxes: two
different single merges from the same state either coincide or can be joined
in one more step each. -/
theorem mstep_diamond {t : β} {S T1 T2 : Multiset (Rect β)} (ht : 0 ≤ t) (hg : GoodM S)
    (h1 : MStep t S T1) (h2 : MStep t S T2) :
    T1 = T2 ∨ ∃ U, MStep t T1 U ∧ MStep t T2 U := by
  obtain ⟨a, b, r1, hS1, hab, hT1⟩ := h1
  obtain ⟨c, d, r2, hS2, hcd, hT2⟩ := h2
  have hga : a.isEmptyB = false := hg a (by rw [hS1]; exact Multiset.mem_cons_self _ _)
  have hgb : b.isEmptyB = false :=
    hg b (by rw [hS1]; exact Multiset.mem_cons_of_mem (Multiset.mem_cons_self _ _))
  have hgc : c.isEmptyB = false := hg c (by rw [hS2]; exact Multiset.mem_cons_self _ _)
  have hgd : d.isEmptyB = false :=
    hg d (by rw [hS2]; exact Multiset.mem_cons_of_mem (Multiset.mem_cons_self _ _))
  have key : a ::ₘ b ::ₘ r1 = c ::ₘ d ::ₘ r2 := by rw [← hS1, ← hS2]
  rcases Multiset.cons_eq_cons.mp key with ⟨hac, htail⟩ | ⟨hac, u, hu1, hu2⟩
  · -- a = c
    subst hac
    rcases Multiset.cons_eq_cons.mp htail with ⟨hbd, hrr⟩ | ⟨hbd, u, hu1, hu2⟩
    · -- same pair, same remainder
      left
      rw [hT1, hT2, hbd, hrr]
    · -- shared first element a; b and d distinct members
      right
      refine ⟨(a.union b).union d ::ₘ u, ?_, ?_⟩
      · refine ⟨a.union b, d, u, ?_, near_union_left hga hcd, rfl⟩
        rw [hT1, hu1]
      · refine ⟨a.union d, b, u, ?_, near_union_left hga hab, ?_⟩
        · rw [hT2, hu2]
        · have : (a.union d).union b = (a.union b).union d := by
            rw [union_assoc hga hgd hgb, union_assoc hga hgb hgd, union_comm hgd hgb]
          rw [this]
  · -- a and c distinct at the head
    rcases Multiset.cons_eq_cons.mp hu1 with ⟨hbc, hr1u⟩ | ⟨hbc, v, hv1, hv2⟩
    · -- b = c
      subst hbc
      rcases Multiset.cons_eq_cons.mp hu2 with ⟨hda, hr2u⟩ | ⟨hda, w, hw1, hw2⟩
      · -- pairs are (a, b) and (b, a): same merge up to commutation
        left
        rw [hT1, hT2, hda, hr1u, hr2u, union_comm hga hgb]
      · -- shared element b; a and d distinct members
        right
        refine ⟨(a.union b).union d ::ₘ w, ?_, ?_⟩
        · refine ⟨a.union b, d, w, ?_, near_union_right hgb hcd, rfl⟩
          rw [hT1, hr1u, hw2]
        · refine ⟨b.union d, a, w, ?_, near_union_left hgb (near_symm ht hga hgb hab), ?_⟩
          · rw [hT2, hw1]
          · have : (b.union d).union a = (a.union b).union d := by
              rw [union_assoc hgb hgd hga, union_comm hgd hga,
                ← union_assoc hgb hga hgd, union_comm hgb hga]
            rw [this]
    · -- b and c distinct
      rcases Multiset.cons_eq_cons.mp hu2 with ⟨hda, hr2u⟩ | ⟨hda, w, hw1, hw2⟩
      · -- d = a: shared element; pairs (a, b) and (c, a); subst renames a to d
        right
        subst hda
        refine ⟨(d.union b).union c ::ₘ v, ?_, ?_⟩
        · refine ⟨d.union b, c, v, ?_, near_union_left hgd (near_symm ht hgc hgd hcd), rfl⟩
          rw [hT1, hv1]
        · refine ⟨c.union d, b, v, ?_, near_union_right hgd hab, ?_⟩
          · rw [hT2, hr2u, hv2]
          · have h9 : (c.union d).union b = (d.union b).union c := by
              rw [union_comm hgc hgd, union_assoc hgd hgc hgb, union_comm hgc hgb,
                ← union_assoc hgd hgb hgc]
            rw [h9]
      · -- all of a, c distinct and b, c distinct, d distinct from a
        rcases Multiset.cons_eq_cons.mp (hv2.symm.trans hw2) with ⟨hbd, hvw⟩ | ⟨hbd, x, hx1, hx2⟩
        · -- b = d: shared element b; pairs (a, b) and (c, b)
          right
          subst hbd
          refine ⟨(a.union b).union c ::ₘ v, ?_, ?_⟩
          · refine ⟨a.union b, c, v, ?_, near_union_right hgb (near_symm ht hgc hgb hcd), rfl⟩
            rw [hT1, hv1]
          · refine ⟨c.union b, a, v, ?_, near_union_right hgb (near_symm ht hga hgb hab), ?_⟩
            · rw [hT2, hw1, hvw]
            · have : (c.union b).union a = (a.union b).union c := by
                rw [union_comm hgc hgb, union_assoc hgb hgc hga, union_comm hgc hga,
                  ← union_assoc hgb hga hgc, union_comm hgb hga]
              rw [this]
        · -- the two pairs are disjoint
          right
          refine ⟨a.union b ::ₘ c.union d ::ₘ x, ?_, ?_⟩
          · refine ⟨c, d, a.union b ::ₘ x, ?_, hcd, ?_⟩
            · rw [hT1, hv1, hx1]
              rw [Multiset.cons_swap (Rect.union a b) c, Multiset.cons_swap (Rect.union a b) d]
            · rw [Multiset.cons_swap (Rect.union c d) (Rect.union a b)]
          · refine ⟨a, b, c.union d ::ₘ x, ?_, hab, ?_⟩
            · rw [hT2, hw1, hx2]
              rw [Multiset.cons_swap (Rect.union c d) a, Multiset.cons_swap (Rect.union c d) b]
            · rfl

theorem tryMergeInto_spec {t : β} {r1 : Rect β} :
    ∀ {l l1 : List (Rect β)}, tryMergeInto t r1 l = some l1 →
      ∃ pre b post, l = pre ++ b :: post ∧ near t r1 b = true ∧
        l1 = pre ++ r1.union b :: post
  | [], _, h => by simp [tryMergeInto] at h
  | b :: rest, l1, h => by
    simp only [tryMergeInto] at h
    split at h
    · next hnear =>
      cases h
      exact ⟨[], b, rest, rfl, hnear, rfl⟩
    · cases hrec : tryMergeInto t r1 rest with
      | none => rw [hrec] at h; simp at h
      | some l2 =>
        rw [hrec] at h
        simp only [Option.map_some'] at h
        cases h
        obtain ⟨pre, b2, post, he, hnear, he2⟩ := tryMergeInto_spec hrec
        exact ⟨b :: pre, b2, post, by rw [he, List.cons_append], hnear,
          by rw [he2, List.cons_append]⟩

theorem coe_middle (pre post : List (Rect β)) (b : Rect β) :
    (↑(pre ++ b :: post) : Multiset (Rect β)) = b ::ₘ ↑(pre ++ post) := by
  rw [Multiset.cons_coe]
  exact Multiset.coe_eq_coe.mpr List.perm_middle

theorem scanRev_mstep {t : β} :
    ∀ {l l1 : List (Rect β)}, scanRev t l = some l1 →
      MStep t (↑l) (↑l1)
  | [], _, h => by simp [scanRev] at h
  | r1 :: revRest, l1, h => by
    simp only [scanRev] at h
    cases htm : tryMergeInto t r1 revRest with
    | some l2 =>
      rw [htm] at h
      cases h
      obtain ⟨pre, b, post, he, hnear, he2⟩ := tryMergeInto_spec htm
      refine ⟨r1, b, ↑(pre ++ post), ?_, hnear, ?_⟩
      · rw [he, ← Multiset.cons_coe, coe_middle]
      · rw [he2, coe_middle]
    | none =>
      rw [htm] at h
      cases hrec : scanRev t revRest with
      | none => rw [hrec] at h; simp at h
      | some l2 =>
        rw [hrec] at h
        simp only [Option.map_some'] at h
        cases h
        rw [← Multiset.cons_coe, ← Multiset.cons_coe]
        exact mstep_cons r1 (scanRev_mstep hrec)

theorem scanStep_mstep {t : β} {l l1 : List (Rect β)} (h : scanStep t l = some l1) :
    MStep t (↑l) (↑l1) := by
  simp only [scanStep] at h
  cases hrev : scanRev t l.reverse with
  | none => rw [hrev] at h; simp at h
  | some l2 =>
    rw [hrev] at h
    simp only [Option.map_some'] at h
    cases h
    have hms := scanRev_mstep hrev
    rw [Multiset.coe_reverse] at hms
    rw [Multiset.coe_reverse]
    exact hms

theorem tryMergeInto_none {t : β} {r1 : Rect β} :
    ∀ {l : List (Rect β)}, tryMergeInto t r1 l = none → ∀ b ∈ l, near t r1 b = false
  | [], _, _, hb => by simp at hb
  | b :: rest, h, b2, hb => by
    simp only [tryMergeInto] at h
    split at h
    · simp at h
    · next hnear =>
      rcases List.mem_cons.mp hb with h1 | h1
      · subst h1
        exact Bool.not_eq_true _ ▸ by simpa using hnear
      · cases hrec : tryMergeInto t r1 rest with
        | some l2 => rw [hrec] at h; simp at h
        | none => exact tryMergeInto_none hrec b2 h1

theorem scanRev_none {t : β} :
    ∀ {l : List (Rect β)}, scanRev t l = none →
      ∀ u r1 v, l = u ++ r1 :: v → ∀ b ∈ v, near t r1 b = false
  | [], _, u, r1, v, he => by simp at he
  | x :: rest, h, u, r1, v, he => by
    simp only [scanRev] at h
    cases htm : tryMergeInto t x rest with
    | some l2 => rw [htm] at h; simp at h
    | none =>
      rw [htm] at h
      have hrec : scanRev t rest = none := by
        cases hr : scanRev t rest with
        | none => rfl
        | some l3 => rw [hr] at h; simp at h
      cases u with
      | nil =>
        simp only [List.nil_append, List.cons.injEq] at he
        intro b hb
        rw [← he.1]
        exact tryMergeInto_none htm b (he.2 ▸ hb)
      | cons x2 u2 =>
        simp only [List.cons_append, List.cons.injEq] at he
        exact scanRev_none hrec u2 r1 v he.2

theorem mem_erase_split {γ : Type} [DecidableEq γ] {a b : γ} :
    ∀ {l : List γ}, a ∈ l → b ∈ l.erase a →
      (∃ u v w, l = u ++ a :: v ++ b :: w) ∨ (∃ u v w, l = u ++ b :: v ++ a :: w)
  | [], ha, _ => by simp at ha
  | x :: t, ha, hb => by
    by_cases hxa : x = a
    · subst hxa
      rw [List.erase_cons_head] at hb
      obtain ⟨s, t2, hs⟩ := List.append_of_mem hb
      exact Or.inl ⟨[], s, t2, by simp [hs]⟩
    · rw [List.erase_cons_tail (by simp [hxa])] at hb
      rcases List.mem_cons.mp hb with h1 | h1
      · subst h1
        have ha2 : a ∈ t := by
          rcases List.mem_cons.mp ha with h2 | h2
          · exact absurd h2.symm hxa
          · exact h2
        obtain ⟨s, t2, hs⟩ := List.append_of_mem ha2
        exact Or.inr ⟨[], s, t2, by simp [hs]⟩
      · have ha2 : a ∈ t := by
          rcases List.mem_cons.mp ha with h2 | h2
          · exact absurd h2.symm hxa
          · exact h2
        rcases mem_erase_split ha2 h1 with ⟨u, v, w, he⟩ | ⟨u, v, w, he⟩
        · exact Or.inl ⟨x :: u, v, w, by rw [he]; rfl⟩
        · exact Or.inr ⟨x :: u, v, w, by rw [he]; rfl⟩

theorem no_mstep_of_scanStep_none {t : β} {l : List (Rect β)} (ht : 0 ≤ t)
    (hg : GoodM (↑l : Multiset (Rect β))) (h : scanStep t l = none) :
    ∀ T, ¬ MStep t (↑l) T := by
  intro T hstep
  obtain ⟨a, b, rest, hS, hnear, _⟩ := hstep
  have hrevnone : scanRev t l.reverse = none := by
    cases hr : scanRev t l.reverse with
    | none => rfl
    | some l2 => rw [scanStep, hr] at h; simp at h
  have ha : a ∈ l.reverse := by
    rw [← Multiset.mem_coe, Multiset.coe_reverse, hS]
    exact Multiset.mem_cons_self _ _
  have hb : b ∈ l.reverse.erase a := by
    rw [← Multiset.mem_coe, ← Multiset.coe_erase, Multiset.coe_reverse, hS,
      Multiset.erase_cons_head]
    exact Multiset.mem_cons_self _ _
  have hga : a.isEmptyB = false := hg a (by rw [hS]; exact Multiset.mem_cons_self _ _)
  have hgb : b.isEmptyB = false :=
    hg b (by rw [hS]; exact Multiset.mem_cons_of_mem (Multiset.mem_cons_self _ _))
  rcases mem_erase_split ha hb with ⟨u, v, w, he⟩ | ⟨u, v, w, he⟩
  · have := scanRev_none hrevnone u a (v ++ b :: w) (by simp [he]) b (by simp)
    rw [hnear] at this
    cases this
  · have := scanRev_none hrevnone u b (v ++ a :: w) (by simp [he]) a (by simp)
    rw [near_symm ht hga hgb hnear] at this
    cases this

theorem goodM_rtg {t : β} {S T : Multiset (Rect β)}
    (h : Relation.ReflTransGen (StepG t) S T) (hg : GoodM S) : GoodM T := by
  induction h with
  | refl => exact hg
  | tail _ hstep ih => exact goodM_mstep ih hstep.2

theorem mergeLoop_rtg (t : β) (l : List (Rect β)) (hg : GoodM (↑l : Multiset (Rect β))) :
    Relation.ReflTransGen (StepG t) (↑l) (↑(mergeLoop t l)) := by
  cases h : scanStep t l with
  | none =>
    rw [mergeLoop_none h]
  | some l1 =>
    have hstep : StepG t (↑l) (↑l1) := ⟨hg, scanStep_mstep h⟩
    have hg1 : GoodM (↑l1 : Multiset (Rect β)) := goodM_mstep hg hstep.2
    have h2 := scanStep_length h
    rw [mergeLoop_step h]
    exact Relation.ReflTransGen.head hstep (mergeLoop_rtg t l1 hg1)
termination_by l.length
decreasing_by
  omega

theorem stepg_cr (t : β) :
    ∀ S T1 T2, StepG t S T1 → StepG t S T2 → (0 : β) ≤ t →
      ∃ d, Relation.ReflGen (StepG t) T1 d ∧ Relation.ReflTransGen (StepG t) T2 d := by
  intro S T1 T2 h1 h2 ht
  rcases mstep_diamond ht h1.1 h1.2 h2.2 with he | ⟨U, hu1, hu2⟩
  · exact ⟨T1, Relation.ReflGen.refl, he ▸ Relation.ReflTransGen.refl⟩
  · refine ⟨U, Relation.ReflGen.single ⟨goodM_mstep h1.1 h1.2, hu1⟩,
      Relation.ReflTransGen.single ⟨goodM_mstep h2.1 h2.2, hu2⟩⟩

theorem rtg_of_normal_eq {t : β} {S d : Multiset (Rect β)}
    (hn : ∀ T, ¬ StepG t S T) (h : Relation.ReflTransGen (StepG t) S d) : d = S := by
  rcases Relation.ReflTransGen.cases_head h with he | ⟨c, hc, _⟩
  · exact he.symm
  · exact absurd hc (hn c)

/-- C8 amended: for lists of nonempty boxes (positive width and height, as in
fitz) and a nonnegative threshold, the fixed-point merge is order-independent:
permuting the input list yields the same final multiset (hence the same set)
of merged regions. For boxes that fitz regards as empty (zero-width vector
drawings, say) this fails, as the counterexample shows. -/
theorem merge_nearby_bboxes_perm_invariant (t : β) (ht : 0 ≤ t)
    (l l2 : List (Rect β)) (hp : l.Perm l2)
    (hg : ∀ r ∈ l, r.isEmptyB = false) :
    (↑(merge_nearby_bboxes t l) : Multiset (Rect β)) = ↑(merge_nearby_bboxes t l2) := by
  have hco : (↑l : Multiset (Rect β)) = ↑l2 := Multiset.coe_eq_coe.mpr hp
  have hgm : GoodM (↑l : Multiset (Rect β)) := by
    intro r hr
    exact hg r (Multiset.mem_coe.mp hr)
  have hgm2 : GoodM (↑l2 : Multiset (Rect β)) := by rw [← hco]; exact hgm
  by_cases hl : l.isEmpty
  · have hl2 : l2.isEmpty = true := by
      cases l2 with
      | nil => rfl
      | cons x xs =>
        cases l with
        | nil => exact absurd hp.length_eq (by simp)
        | cons y ys => simp at hl
    rw [merge_nearby_bboxes, merge_nearby_bboxes, if_pos hl, if_pos hl2]
  · have hl2 : l2.isEmpty = false := by
      cases l2 with
      | nil =>
        cases l with
        | nil => simp at hl
        | cons y ys => exact absurd hp.length_eq (by simp)
      | cons x xs => rfl
    rw [merge_nearby_bboxes, merge_nearby_bboxes, if_neg (by simp [hl]), if_neg (by simp [hl2])]
    have r1 := mergeLoop_rtg t l hgm
    have r2 := mergeLoop_rtg t l2 hgm2
    rw [← hco] at r2
    obtain ⟨d, hd1, hd2⟩ :=
      Relation.church_rosser (fun a b c hab hac => stepg_cr t a b c hab hac ht) r1 r2
    have hn1 : ∀ T, ¬ StepG t (↑(mergeLoop t l) : Multiset (Rect β)) T := by
      intro T hT
      exact no_mstep_of_scanStep_none ht (goodM_rtg r1 hgm) (mergeLoop_fixed t l) T hT.2
    have hn2 : ∀ T, ¬ StepG t (↑(mergeLoop t l2) : Multiset (Rect β)) T := by
      intro T hT
      have hg2 : GoodM (↑(mergeLoop t l2) : Multiset (Rect β)) := by
        refine goodM_rtg r2 ?_
        exact hgm
      exact no_mstep_of_scanStep_none ht hg2 (mergeLoop_fixed t l2) T hT.2
    exact (rtg_of_normal_eq hn1 hd1).symm.trans (rtg_of_normal_eq hn2 hd2)

/-- Witness for the amended C8 at a concrete input: two nonempty overlapping
boxes merge to the same single region in either order. -/
theorem merge_nearby_bboxes_perm_invariant_witness :
    (0 : ℤ) ≤ 15 ∧
      List.Perm [(⟨0, 0, 10, 10⟩ : Rect ℤ), ⟨5, 5, 20, 20⟩]
        [(⟨5, 5, 20, 20⟩ : Rect ℤ), ⟨0, 0, 10, 10⟩] ∧
      (∀ r ∈ [(⟨0, 0, 10, 10⟩ : Rect ℤ), ⟨5, 5, 20, 20⟩], r.isEmptyB = false) ∧
      (↑(merge_nearby_bboxes (15 : ℤ) [(⟨0, 0, 10, 10⟩ : Rect ℤ), ⟨5, 5, 20, 20⟩]) :
          Multiset (Rect ℤ)) =
        ↑(merge_nearby_bboxes (15 : ℤ) [(⟨5, 5, 20, 20⟩ : Rect ℤ), ⟨0, 0, 10, 10⟩]) :=
  ⟨by decide, by decide, by decide,
    merge_nearby_bboxes_perm_invariant 15 (by decide) _ _ (by decide) (by decide)⟩

/-- A text embedding vector; components are Python floats in the source. -/
abbrev Vec (β : Type) := List β

/-- One entry of the id-to-source mapping (mapping.json):
a doc_id and chunk_text pair, as written by update_faiss_index. -/
structure SourceRef where
  doc_id : Nat
  chunk_text : String
deriving DecidableEq, Repr

/-- Python dict assignment d[k] = v on an insertion-ordered dict: replace the
value when the key is present (keeping its position), else append the pair. -/
def dictInsert {κ ν : Type} [DecidableEq κ] (k : κ) (v : ν) : List (κ × ν) → List (κ × ν)
  | [] => [(k, v)]
  | (k2, v2) :: rest => if k2 = k then (k, v) :: rest else (k2, v2) :: dictInsert k v rest

/-- Python dict lookup d[k]: the value stored under the key, if present. -/
def dictLookup {κ ν : Type} [DecidableEq κ] (k : κ) : List (κ × ν) → Option ν
  | [] => none
  | (k2, v2) :: rest => if k2 = k then some v2 else dictLookup k rest

/-- The persistent per-project state of the vector index store: the FAISS
index is an ordered sequence of vectors (IndexFlatL2.add appends), and the
JSON mapping maps the position str(i) to its source reference; keys are
modelled by their integer values. -/
structure FaissState (β : Type) where
  index : List (Vec β)
  mapping : List (Int × SourceRef)
deriving DecidableEq, Repr

/-- The mapping-update loop of update_faiss_index (llm_logic.py lines
148-149): for i, chunk in enumerate(chunks), set
mapping[str(start_index + i)] = dict of doc_id and chunk_text. -/
def addChunkEntries (doc_id : Nat) :
    List (Int × SourceRef) → Nat → List String → List (Int × SourceRef)
  | m, _, [] => m
  | m, start, c :: cs =>
    addChunkEntries doc_id (dictInsert ((start : Nat) : Int) ⟨doc_id, c⟩ m) (start + 1) cs

/-- update_faiss_index (llm_logic.py lines 129-154): load the existing index
and mapping when present, else start fresh; append the embeddings in order
starting at position start_index = index.ntotal; record a mapping entry under
str(start_index + i) for the i-th chunk; save. -/
def update_faiss_index (st : Option (FaissState β)) (doc_id : Nat)
    (chunks : List String) (embeddings : List (Vec β)) : FaissState β :=
  let st0 := st.getD ⟨[], []⟩
  { index := st0.index ++ embeddings,
    mapping := addChunkEntries doc_id st0.mapping st0.index.length chunks }

/-- The data-model invariant of the Vector Index Store: the mapping keys are
exactly the index positions 0..size-1, in insertion order. It implies that
index size equals mapping size and every lookup key is a valid position. -/
def FaissInvariant (st : FaissState β) : Prop :=
  st.mapping.map Prod.fst = (List.range st.index.length).map Int.ofNat

/-- The fresh entries written for one document, in insertion order. -/
def chunkEntries (doc_id : Nat) : Nat → List String → List (Int × SourceRef)
  | _, [] => []
  | start, c :: cs => (((start : Nat) : Int), ⟨doc_id, c⟩) :: chunkEntries doc_id (start + 1) cs

theorem dictInsert_fresh {κ ν : Type} [DecidableEq κ] {k : κ} {v : ν} :
    ∀ {m : List (κ × ν)}, k ∉ m.map Prod.fst → dictInsert k v m = m ++ [(k, v)]
  | [], _ => rfl
  | (k2, v2) :: rest, h => by
    have h1 : k2 ≠ k := by
      intro he
      exact h (by simp [he])
    have h2 : k ∉ rest.map Prod.fst := by
      intro hm
      exact h (by simp [hm])
    simp only [dictInsert, if_neg h1, List.cons_append, List.cons.injEq, true_and]
    exact dictInsert_fresh h2

theorem dictLookup_append_right {κ ν : Type} [DecidableEq κ] {k : κ} :
    ∀ {m m2 : List (κ × ν)}, k ∉ m.map Prod.fst →
      dictLookup k (m ++ m2) = dictLookup k m2
  | [], _, _ => rfl
  | (k2, v2) :: rest, m2, h => by
    have h1 : k2 ≠ k := by
      intro he
      exact h (by simp [he])
    have h2 : k ∉ rest.map Prod.fst := by
      intro hm
      exact h (by simp [hm])
    simp only [List.cons_append, dictLookup, if_neg h1]
    exact dictLookup_append_right h2

theorem addChunkEntries_fresh (doc_id : Nat) :
    ∀ (cs : List String) (m : List (Int × SourceRef)) (start : Nat),
      (∀ i : Nat, ((start + i : Nat) : Int) ∉ m.map Prod.fst) →
      addChunkEntries doc_id m start cs = m ++ chunkEntries doc_id start cs
  | [], m, start, _ => by simp [addChunkEntries, chunkEntries]
  | c :: cs, m, start, h => by
    have h0 : ((start : Nat) : Int) ∉ m.map Prod.fst := by
      have := h 0
      simpa using this
    have hfresh2 : ∀ i : Nat,
        ((start + 1 + i : Nat) : Int) ∉
          (m ++ [(((start : Nat) : Int), (⟨doc_id, c⟩ : SourceRef))]).map Prod.fst := by
      intro i
      simp only [List.map_append, List.mem_append]
      rintro (hm | hm)
      · have := h (1 + i)
        rw [show start + (1 + i) = start + 1 + i by omega] at this
        exact this hm
      · simp only [List.map_cons, List.map_nil, List.mem_cons, List.not_mem_nil, or_false] at hm
        have : start + 1 + i = start := by
          have h2 : ((start + 1 + i : Nat) : Int) = ((start : Nat) : Int) := hm
          exact_mod_cast h2
        omega
    have hrec := addChunkEntries_fresh doc_id cs
      (m ++ [(((start : Nat) : Int), (⟨doc_id, c⟩ : SourceRef))]) (start + 1) hfresh2
    rw [addChunkEntries, dictInsert_fresh h0, hrec, chunkEntries]
    simp

theorem chunkEntries_keys (doc_id : Nat) :
    ∀ (cs : List String) (start : Nat),
      (chunkEntries doc_id start cs).map Prod.fst =
        (List.range cs.length).map (fun i => ((start + i : Nat) : Int))
  | [], _ => by simp [chunkEntries]
  | c :: cs, start => by
    simp only [chunkEntries, List.map_cons, List.length_cons, List.range_succ_eq_map,
      List.map_map]
    congr 1
    rw [chunkEntries_keys doc_id cs (start + 1)]
    apply List.map_congr_left
    intro i _
    simp only [Function.comp_apply]
    push_cast
    ring

theorem chunkEntries_lookup (doc_id : Nat) :
    ∀ (cs : List String) (start : Nat) (i : Nat) (c : String), cs.get? i = some c →
      dictLookup ((start + i : Nat) : Int) (chunkEntries doc_id start cs) =
        some ⟨doc_id, c⟩
  | [], _, i, c, h => by simp at h
  | c0 :: cs, start, 0, c, h => by
    simp only [List.get?_cons_zero, Option.some.injEq] at h
    subst h
    simp [chunkEntries, dictLookup]
  | c0 :: cs, start, i + 1, c, h => by
    simp only [List.get?_cons_succ] at h
    have hne : ((start : Nat) : Int) ≠ ((start + (i + 1) : Nat) : Int) := by
      intro he
      have := Int.ofNat_inj.mp he
      omega
    simp only [chunkEntries, dictLookup, if_neg hne]
    have := chunkEntries_lookup doc_id cs (start + 1) i c h
    rw [show start + 1 + i = start + (i + 1) by omega] at this
    exact this

/-- C1: adding m vectors with their source references to an index of size n
places the i-th new vector at position n + i, records a mapping entry under
key n + i holding the i-th source chunk, increases the index size by exactly
m, and preserves the invariant that index size equals mapping size with every
lookup key a valid position. -/
theorem update_faiss_index_spec (st : FaissState β) (doc_id : Nat)
    (chunks : List String) (embeddings : List (Vec β))
    (hlen : chunks.length = embeddings.length) (hpos : 0 < chunks.length)
    (hinv : FaissInvariant st) :
    ((update_faiss_index (some st) doc_id chunks embeddings).index.length =
        st.index.length + embeddings.length) ∧
      (∀ i, (update_faiss_index (some st) doc_id chunks embeddings).index.get?
          (st.index.length + i) = embeddings.get? i) ∧
      (∀ i c, chunks.get? i = some c →
        dictLookup ((st.index.length + i : Nat) : Int)
            (update_faiss_index (some st) doc_id chunks embeddings).mapping =
          some ⟨doc_id, c⟩) ∧
      FaissInvariant (update_faiss_index (some st) doc_id chunks embeddings) ∧
      (update_faiss_index (some st) doc_id chunks embeddings).mapping.length =
        (update_faiss_index (some st) doc_id chunks embeddings).index.length ∧
      (∀ k ∈ (update_faiss_index (some st) doc_id chunks embeddings).mapping.map Prod.fst,
        ∃ p : Nat, p < (update_faiss_index (some st) doc_id chunks embeddings).index.length ∧
          k = ((p : Nat) : Int)) := by
  have hfresh : ∀ i : Nat, ((st.index.length + i : Nat) : Int) ∉ st.mapping.map Prod.fst := by
    intro i hm
    rw [hinv] at hm
    simp only [List.mem_map, List.mem_range] at hm
    obtain ⟨p, hp, he⟩ := hm
    have := Int.ofNat_inj.mp he
    omega
  have hmap : (update_faiss_index (some st) doc_id chunks embeddings).mapping =
      st.mapping ++ chunkEntries doc_id st.index.length chunks := by
    simp only [update_faiss_index, Option.getD_some]
    exact addChunkEntries_fresh doc_id chunks st.mapping st.index.length hfresh
  have hidx : (update_faiss_index (some st) doc_id chunks embeddings).index =
      st.index ++ embeddings := rfl
  have hkeys : (update_faiss_index (some st) doc_id chunks embeddings).mapping.map Prod.fst =
      (List.range (st.index.length + embeddings.length)).map Int.ofNat := by
    rw [hmap, List.map_append, hinv, chunkEntries_keys, hlen, List.range_add, List.map_append,
      List.map_map]
    simp [Function.comp]
  refine ⟨by simp [hidx], ?_, ?_, ?_, ?_, ?_⟩
  · intro i
    rw [hidx]
    rw [List.get?_append_right (by omega)]
    congr 1
    omega
  · intro i c hc
    rw [hmap, dictLookup_append_right (hfresh i)]
    exact chunkEntries_lookup doc_id chunks st.index.length i c hc
  · rw [FaissInvariant, hkeys, hidx]
    simp
  · have h1 := congrArg List.length hkeys
    simpa [hidx] using h1
  · intro k hk
    rw [hkeys] at hk
    simp only [List.mem_map, List.mem_range] at hk
    obtain ⟨p, hp, he⟩ := hk
    exact ⟨p, by simpa [hidx] using hp, he.symm⟩

/-- Witness for C1 at a concrete input: a one-vector index with its mapping
receives one more vector. -/
theorem update_faiss_index_spec_witness :
    (update_faiss_index (some ⟨[[1]], [(0, ⟨1, "a"⟩)]⟩) 2 ["b"] [[2]] :
        FaissState ℤ).index.length = 2 ∧
      (update_faiss_index (some (⟨[[1]], [(0, ⟨1, "a"⟩)]⟩ : FaissState ℤ)) 2 ["b"]
          [[2]]).index.get? 1 = some [2] ∧
      dictLookup (1 : Int)
          (update_faiss_index (some (⟨[[1]], [(0, ⟨1, "a"⟩)]⟩ : FaissState ℤ)) 2 ["b"]
            [[2]]).mapping = some ⟨2, "b"⟩ ∧
      FaissInvariant
        (update_faiss_index (some (⟨[[1]], [(0, ⟨1, "a"⟩)]⟩ : FaissState ℤ)) 2 ["b"] [[2]]) := by
  have h := update_faiss_index_spec (⟨[[1]], [(0, ⟨1, "a"⟩)]⟩ : FaissState ℤ) 2 ["b"] [[2]]
    (by decide) (by decide) (by rfl)
  refine ⟨?_, ?_, ?_, h.2.2.2.1⟩
  · simpa using h.1
  · simpa using h.2.1 0
  · simpa using h.2.2.1 0 "b" (by decide)

/-- Squared Euclidean distance between vectors, componentwise, as
IndexFlatL2 scores stored vectors against a query. -/
def sqDist (q v : Vec β) : β :=
  (List.zipWith (fun a b => (a - b) * (a - b)) q v).sum

/-- The order in which the modelled FAISS search ranks stored positions:
ascending squared distance to the query, ties broken by insertion position. -/
def faissRel (q : Vec β) (index : List (Vec β)) (a b : Nat) : Prop :=
  sqDist q (index.getD a []) < sqDist q (index.getD b []) ∨
    (sqDist q (index.getD a []) = sqDist q (index.getD b []) ∧ a ≤ b)

instance (q : Vec β) (index : List (Vec β)) : DecidableRel (faissRel q index) := by
  intro a b
  unfold faissRel
  infer_instance

instance (q : Vec β) (index : List (Vec β)) : IsTotal Nat (faissRel q index) := by
  constructor
  intro a b
  rcases lt_trichotomy (sqDist q (index.getD a [])) (sqDist q (index.getD b [])) with h | h | h
  · exact Or.inl (Or.inl h)
  · rcases Nat.le_total a b with h2 | h2
    · exact Or.inl (Or.inr ⟨h, h2⟩)
    · exact Or.inr (Or.inr ⟨h.symm, h2⟩)
  · exact Or.inr (Or.inl h)

instance (q : Vec β) (index : List (Vec β)) : IsTrans Nat (faissRel q index) := by
  constructor
  intro a b c hab hbc
  rcases hab with h1 | ⟨h1, h2⟩ <;> rcases hbc with h3 | ⟨h3, h4⟩
  · exact Or.inl (lt_trans h1 h3)
  · exact Or.inl (h3 ▸ h1)
  · exact Or.inl (h1 ▸ h3)
  · exact Or.inr ⟨h1.trans h3, h2.trans h4⟩

/-- The positions of the stored vectors in the order the modelled FAISS
search returns them: ascending distance, ties by position. -/
def nearestOrder (index : List (Vec β)) (q : Vec β) : List Nat :=
  (List.range index.length).insertionSort (faissRel q index)

/-- Modelled from the spec: FAISS IndexFlatL2.search, the external nearest
neighbor engine, missing from src. Per the spec contract for search it
returns the k nearest stored vectors by Euclidean distance; it emits exactly
k labels, padded with -1 when fewer than k vectors are stored. -/
def faissSearch (index : List (Vec β)) (q : Vec β) (k : Nat) : List Int :=
  ((nearestOrder index q).take k).map Int.ofNat ++ List.replicate (k - index.length) (-1)

/-- config.py RAG_TOP_K: the number of chunks retrieved per query. -/
def RAG_TOP_K : Nat := 5

/-- The retrieval step of answer_question (llm_logic.py lines 224-230):
clamp k to min(RAG_TOP_K, index.ntotal), search, then resolve every returned
id through the mapping by an unguarded dict access (a missing key would
raise KeyError, modelled as none). -/
def retrieveChunks (top_k : Nat) (st : FaissState β) (qv : Vec β) : Option (List String) :=
  (faissSearch st.index qv (min top_k st.index.length)).mapM
    (fun i => (dictLookup i st.mapping).map SourceRef.chunk_text)

/-- The source entry stored at position p of the mapping. -/
def entryAt (st : FaissState β) (p : Nat) : SourceRef :=
  ((st.mapping.get? p).map Prod.snd).getD ⟨0, ""⟩

theorem lookup_range' {ν : Type} :
    ∀ (m : List (Int × ν)) (s p : Nat),
      m.map Prod.fst = (List.range' s m.length).map Int.ofNat → p < m.length →
      ∃ v, m.get? p = some (Int.ofNat (s + p), v) ∧
        dictLookup (Int.ofNat (s + p)) m = some v
  | [], _, p, _, hp => by simp at hp
  | (k0, v0) :: rest, s, p, hk, hp => by
    simp only [List.length_cons, List.range']  at hk
    simp only [List.map_cons, List.cons.injEq] at hk
    obtain ⟨hk0, hkrest⟩ := hk
    cases p with
    | zero =>
      refine ⟨v0, ?_, ?_⟩
      · simp [hk0]
      · simp only [dictLookup, hk0]
        rw [if_pos (by simp)]
    | succ p =>
      have hp2 : p < rest.length := by simpa using hp
      obtain ⟨v, hv1, hv2⟩ := lookup_range' rest (s + 1) p (by simpa using hkrest) hp2
      refine ⟨v, ?_, ?_⟩
      · rw [List.get?_cons_succ, hv1]
        rw [show Int.ofNat (s + 1 + p) = Int.ofNat (s + (p + 1)) from
          congrArg Int.ofNat (by omega)]
      · have hne : k0 ≠ Int.ofNat (s + (p + 1)) := by
          rw [hk0]
          intro he
          have h3 : s = s + (p + 1) := Int.ofNat.inj he
          omega
        simp only [dictLookup, if_neg hne]
        rw [show Int.ofNat (s + (p + 1)) = Int.ofNat (s + 1 + p) from
          congrArg Int.ofNat (by omega)]
        exact hv2

theorem invariant_lookup {st : FaissState β} (hinv : FaissInvariant st) {p : Nat}
    (hp : p < st.index.length) :
    dictLookup (Int.ofNat p) st.mapping = some (entryAt st p) ∧
      st.mapping.get? p = some (Int.ofNat p, entryAt st p) := by
  have hlen : st.mapping.length = st.index.length := by
    have := congrArg List.length hinv
    simpa using this
  have hk : st.mapping.map Prod.fst = (List.range' 0 st.mapping.length).map Int.ofNat := by
    rw [hinv, hlen, ← List.range_eq_range']
  obtain ⟨v, hv1, hv2⟩ := lookup_range' st.mapping 0 p hk (by omega)
  simp only [Nat.zero_add] at hv1 hv2
  have he : entryAt st p = v := by
    rw [entryAt, hv1]
    rfl
  rw [he]
  exact ⟨hv2, hv1⟩

theorem mapM_resolve (st : FaissState β) (hinv : FaissInvariant st) :
    ∀ ids : List Nat, (∀ p ∈ ids, p < st.index.length) →
      (ids.map Int.ofNat).mapM (fun i => (dictLookup i st.mapping).map SourceRef.chunk_text) =
        some (ids.map (fun p => (entryAt st p).chunk_text))
  | [], _ => rfl
  | p :: ids, h => by
    have hp := h p (List.mem_cons_self _ _)
    have hrest := mapM_resolve st hinv ids (fun p2 hp2 => h p2 (List.mem_cons_of_mem _ hp2))
    rw [List.map_cons, List.mapM_cons, (invariant_lookup hinv hp).1, hrest]
    rfl

/-- C9: with the index holding n vectors, the question-answering retrieval
returns min(k, n) results (all n stored entries, up to order, when n < k),
each resolved through the mapping to its stored source chunk, and every
returned position is at least as near to the query by squared Euclidean
distance as every omitted position. -/
theorem answer_question_knn (top_k : Nat) (st : FaissState β) (qv : Vec β)
    (hinv : FaissInvariant st) :
    retrieveChunks top_k st qv =
        some (((nearestOrder st.index qv).take (min top_k st.index.length)).map
          (fun p => (entryAt st p).chunk_text)) ∧
      (((nearestOrder st.index qv).take (min top_k st.index.length)).map
          (fun p => (entryAt st p).chunk_text)).length = min top_k st.index.length ∧
      (∀ p ∈ (nearestOrder st.index qv).take (min top_k st.index.length),
        ∀ p2 < st.index.length,
          p2 ∉ (nearestOrder st.index qv).take (min top_k st.index.length) →
            sqDist qv (st.index.getD p []) ≤ sqDist qv (st.index.getD p2 [])) ∧
      (st.index.length < top_k →
        List.Perm
          (((nearestOrder st.index qv).take (min top_k st.index.length)).map
            (fun p => (entryAt st p).chunk_text))
          (st.mapping.map (fun e => e.2.chunk_text))) := by
  have hsortlen : (nearestOrder st.index qv).length = st.index.length := by
    rw [nearestOrder, List.length_insertionSort, List.length_range]
  have hsortperm : List.Perm (nearestOrder st.index qv) (List.range st.index.length) :=
    List.perm_insertionSort _ _
  have hmem : ∀ p ∈ (nearestOrder st.index qv).take (min top_k st.index.length),
      p < st.index.length := by
    intro p hp
    have h1 : p ∈ nearestOrder st.index qv := List.mem_of_mem_take hp
    have h2 : p ∈ List.range st.index.length := hsortperm.mem_iff.mp h1
    exact List.mem_range.mp h2
  have hk : min top_k st.index.length ≤ st.index.length := Nat.min_le_right _ _
  refine ⟨?_, ?_, ?_, ?_⟩
  · rw [retrieveChunks, faissSearch]
    rw [show min top_k st.index.length - st.index.length = 0 by omega]
    rw [List.replicate_zero, List.append_nil]
    exact mapM_resolve st hinv _ hmem
  · rw [List.length_map, List.length_take, hsortlen]
    omega
  · intro p hp p2 hp2 hnotin
    have hsorted : List.Sorted (faissRel qv st.index) (nearestOrder st.index qv) :=
      List.sorted_insertionSort _ _
    have hsplit := List.take_append_drop (min top_k st.index.length) (nearestOrder st.index qv)
    have hp2mem : p2 ∈ nearestOrder st.index qv :=
      hsortperm.mem_iff.mpr (List.mem_range.mpr hp2)
    have hp2drop : p2 ∈ (nearestOrder st.index qv).drop (min top_k st.index.length) := by
      rcases List.mem_append.mp (by rw [hsplit]; exact hp2mem) with h | h
      · exact absurd h hnotin
      · exact h
    have hpair : faissRel qv st.index p p2 := by
      rw [List.Sorted, ← hsplit, List.pairwise_append] at hsorted
      exact hsorted.2.2 p hp p2 hp2drop
    rcases hpair with h | ⟨h, _⟩
    · exact le_of_lt h
    · exact le_of_eq h
  · intro hlt
    have hkn : min top_k st.index.length = st.index.length := by omega
    rw [hkn]
    have htake : (nearestOrder st.index qv).take st.index.length = nearestOrder st.index qv := by
      rw [← hsortlen, List.take_length]
    rw [htake]
    have hperm2 : List.Perm
        ((nearestOrder st.index qv).map (fun p => (entryAt st p).chunk_text))
        ((List.range st.index.length).map (fun p => (entryAt st p).chunk_text)) :=
      hsortperm.map _
    refine hperm2.trans ?_
    have heq : (List.range st.index.length).map (fun p => (entryAt st p).chunk_text) =
        st.mapping.map (fun e => e.2.chunk_text) := by
      have hlen : st.mapping.length = st.index.length := by
        have := congrArg List.length hinv
        simpa using this
      apply List.ext_get?
      intro i
      by_cases hi : i < st.index.length
      · rw [List.get?_map, List.get?_map, List.get?_range hi, (invariant_lookup hinv hi).2]
        rfl
      · rw [List.get?_map, List.get?_map]
        rw [List.get?_eq_none.mpr (by simpa using hi), List.get?_eq_none.mpr (by omega)]
        rfl
    rw [heq]

/-- Witness for C9 at a concrete input: an index of two vectors, a query
nearest to the second, and the configured top k of 5 larger than the index. -/
theorem answer_question_knn_witness :
    retrieveChunks 5 (⟨[[0], [10]], [(0, ⟨1, "a"⟩), (1, ⟨1, "b"⟩)]⟩ : FaissState ℤ) [9] =
        some ["b", "a"] ∧
      List.Perm ["b", "a"]
        ((⟨[[0], [10]], [(0, ⟨1, "a"⟩), (1, ⟨1, "b"⟩)]⟩ :
          FaissState ℤ).mapping.map (fun e => e.2.chunk_text)) := by
  have hinv : FaissInvariant
      (⟨[[0], [10]], [(0, ⟨1, "a"⟩), (1, ⟨1, "b"⟩)]⟩ : FaissState ℤ) := by
    rw [FaissInvariant]
    rfl
  have h := answer_question_knn 5 (⟨[[0], [10]], [(0, ⟨1, "a"⟩), (1, ⟨1, "b"⟩)]⟩ : FaissState ℤ)
    [9] hinv
  have he : ((nearestOrder ([[0], [10]] : List (Vec ℤ)) [9]).take
      (min 5 ([[0], [10]] : List (Vec ℤ)).length)).map
      (fun p => (entryAt (⟨[[0], [10]], [(0, ⟨1, "a"⟩), (1, ⟨1, "b"⟩)]⟩ : FaissState ℤ)
        p).chunk_text) = ["b", "a"] := by decide
  refine ⟨?_, ?_⟩
  · rw [h.1, he]
  · have := h.2.2.2 (by decide)
    rwa [he] at this

/-- Insertion into the context item set (a Python set, modelled as an
insertion-ordered list without duplicates). -/
def addItem {η : Type} [DecidableEq η] (x : η) (l : List η) : List η :=
  if x ∈ l then l else l ++ [x]

/-- The text-search branch of the context assembler (agent_logic.py lines
106-110): for each id of the search result, only when str(idx) is a key of
the mapping is the mapped snippet added to the context item set; the dict
access inside the guard is modelled as the fallible lookup it is. -/
def textSearchLoop (m : List (Int × SourceRef)) :
    List Int → List (Nat × String) → Option (List (Nat × String))
  | [], acc => some acc
  | i :: rest, acc =>
    if (dictLookup i m).isSome then
      match dictLookup i m with
      | some item =>
        textSearchLoop m rest
          (addItem (item.doc_id, "Relevant Text Snippet:\n" ++ item.chunk_text) acc)
      | none => none
    else textSearchLoop m rest acc

theorem mem_addItem {η : Type} [DecidableEq η] {x y : η} {l : List η}
    (h : x ∈ addItem y l) : x ∈ l ∨ x = y := by
  rw [addItem] at h
  split at h
  · exact Or.inl h
  · rcases List.mem_append.mp h with h1 | h1
    · exact Or.inl h1
    · simp only [List.mem_singleton] at h1
      exact Or.inr h1

theorem textSearchLoop_total (m : List (Int × SourceRef)) :
    ∀ (ids : List Int) (acc : List (Nat × String)),
      ∃ res, textSearchLoop m ids acc = some res ∧
        ∀ x ∈ res, x ∈ acc ∨ ∃ i ∈ ids, ∃ item, dictLookup i m = some item ∧
          x = (item.doc_id, "Relevant Text Snippet:\n" ++ item.chunk_text)
  | [], acc => ⟨acc, rfl, fun x hx => Or.inl hx⟩
  | i :: ids, acc => by
    cases hl : dictLookup i m with
    | none =>
      obtain ⟨res, h1, h2⟩ := textSearchLoop_total m ids acc
      refine ⟨res, ?_, ?_⟩
      · rw [textSearchLoop, if_neg (by simp [hl]), h1]
      · intro x hx
        rcases h2 x hx with h | ⟨i2, hi2, item, hit, he⟩
        · exact Or.inl h
        · exact Or.inr ⟨i2, List.mem_cons_of_mem _ hi2, item, hit, he⟩
    | some item =>
      obtain ⟨res, h1, h2⟩ := textSearchLoop_total m ids
        (addItem (item.doc_id, "Relevant Text Snippet:\n" ++ item.chunk_text) acc)
      refine ⟨res, ?_, ?_⟩
      · rw [textSearchLoop, if_pos (by simp [hl]), hl]
        exact h1
      · intro x hx
        rcases h2 x hx with h | ⟨i2, hi2, item2, hit, he⟩
        · rcases mem_addItem h with h3 | h3
          · exact Or.inl h3
          · exact Or.inr ⟨i, List.mem_cons_self _ _, item, hl, h3⟩
        · exact Or.inr ⟨i2, List.mem_cons_of_mem _ hi2, item2, hit, he⟩

theorem dictLookup_mem_keys {κ ν : Type} [DecidableEq κ] {k : κ} {v : ν} :
    ∀ {m : List (κ × ν)}, dictLookup k m = some v → k ∈ m.map Prod.fst
  | [], h => by simp [dictLookup] at h
  | (k2, v2) :: rest, h => by
    by_cases he : k2 = k
    · simp [he]
    · simp only [dictLookup, if_neg he] at h
      simp only [List.map_cons, List.mem_cons]
      exact Or.inr (dictLookup_mem_keys h)

/-- C10: in the text-search branch of the context assembler, the loop always
completes without a lookup failure, every contributed entry comes from a
mapped id of the search result, keys absent from the mapping are silently
skipped, negative ids (in particular the -1 padding) are never mapping keys
under the index invariant, and the -1 padding does occur whenever the index
holds fewer than the requested k vectors. -/
theorem gather_text_branch_safe (top_k : Nat) (st : FaissState β) (qv : Vec β)
    (hinv : FaissInvariant st) :
    (∃ res, textSearchLoop st.mapping (faissSearch st.index qv top_k) [] = some res ∧
        ∀ x ∈ res, ∃ i ∈ faissSearch st.index qv top_k, ∃ item,
          dictLookup i st.mapping = some item ∧
            x = (item.doc_id, "Relevant Text Snippet:\n" ++ item.chunk_text)) ∧
      (∀ i : Int, i < 0 → dictLookup i st.mapping = none) ∧
      (st.index.length < top_k → (-1 : Int) ∈ faissSearch st.index qv top_k) := by
  refine ⟨?_, ?_, ?_⟩
  · obtain ⟨res, h1, h2⟩ := textSearchLoop_total st.mapping (faissSearch st.index qv top_k) []
    refine ⟨res, h1, ?_⟩
    intro x hx
    rcases h2 x hx with h | h
    · simp at h
    · exact h
  · intro i hi
    cases hl : dictLookup i st.mapping with
    | none => rfl
    | some v =>
      have hk := dictLookup_mem_keys hl
      rw [hinv] at hk
      simp only [List.mem_map, List.mem_range] at hk
      obtain ⟨p, _, he⟩ := hk
      subst he
      exact absurd hi (not_lt.mpr (Int.ofNat_nonneg p))
  · intro hlt
    rw [faissSearch]
    refine List.mem_append.mpr (Or.inr ?_)
    rw [List.mem_replicate]
    constructor
    · omega
    · rfl

/-- Witness for C10 at a concrete input: a one-vector index searched with
the configured k of 5; the padding -1 labels are skipped and only the one
mapped snippet is contributed. -/
theorem gather_text_branch_safe_witness :
    textSearchLoop [((0 : Int), (⟨1, "a"⟩ : SourceRef))]
        (faissSearch ([[0]] : List (Vec ℤ)) [0] 5) [] =
      some [(1, "Relevant Text Snippet:\na")] ∧
      dictLookup (-1 : Int) [((0 : Int), (⟨1, "a"⟩ : SourceRef))] = none ∧
      (-1 : Int) ∈ faissSearch ([[0]] : List (Vec ℤ)) [0] 5 := by
  have h := gather_text_branch_safe 5 (⟨[[0]], [(0, ⟨1, "a"⟩)]⟩ : FaissState ℤ) [0]
    (by rw [FaissInvariant]; rfl)
  refine ⟨by decide, h.2.1 (-1) (by decide), h.2.2 (by decide)⟩

/-- Python str.capitalize: the first character uppercased, all following
characters lowercased. -/
def pyCapitalize (s : String) : String :=
  match s.data with
  | [] => ""
  | c :: rest => String.mk (c.toUpper :: rest.map Char.toLower)

/-- The first element of Python s.split(" "): the characters before the
first space (the whole string when it has no space). -/
def pySplitFirst (s : String) : String :=
  String.mk (s.data.takeWhile (fun c => c ≠ ' '))

/-- The last whitespace token of a string: the characters after the last
space. -/
def lastToken (s : String) : String :=
  String.mk ((s.data.reverse.takeWhile (fun c => c ≠ ' ')).reverse)

/-- The BibTeX key generation of process_and_embed_document (llm_logic.py
lines 53-56): author_lastname + year + underscore + title_firstword, where
author_lastname is author.split(" ")[0].capitalize() when the author field
is truthy (else Unknown) - the first whitespace token of the author string
as written - and title_firstword is title.split(" ")[0].capitalize() when
the title is truthy (else Title). -/
def bib_key (author year title : String) : String :=
  (if author ≠ "" then pyCapitalize (pySplitFirst author) else "Unknown") ++ year ++ "_" ++
    (if title ≠ "" then pyCapitalize (pySplitFirst title) else "Title")

/-- Modelled from the spec: a key derived deterministically from
first-author surname + year + first title word. For an author field written
as Given Surname the surname is the last whitespace token. Capitalization
and the separator follow the implementation so that only the choice of
author token is compared. -/
def spec_bib_key (author year title : String) : String :=
  (if author ≠ "" then pyCapitalize (lastToken author) else "Unknown") ++ year ++ "_" ++
    (if title ≠ "" then pyCapitalize (pySplitFirst title) else "Title")

/-- A persisted Document row, reduced to the fields the uniqueness claim
concerns (models.py lines 16-32). -/
structure DocRec where
  project_id : Nat
  bibtex_key : String
deriving DecidableEq, Repr

/-- The unique=True constraint on Document.bibtex_key (models.py line 28):
committing a document whose key is already present fails with an integrity
error; otherwise the row is appended. -/
def insertDocument (docs : List DocRec) (d : DocRec) : Except String (List DocRec) :=
  if docs.any (fun d0 => d0.bibtex_key = d.bibtex_key) then
    Except.error "UNIQUE constraint failed: document.bibtex_key"
  else Except.ok (docs ++ [d])

/-- C6 counterexample: for the author field John Smith the generated key
uses the FIRST token John (the given name as written), not the surname
Smith, so the key is not derived from the first-author surname. -/
theorem bib_key_not_surname :
    bib_key "John Smith" "2020" "Deep Learning" = "John2020_Deep" ∧
      spec_bib_key "John Smith" "2020" "Deep Learning" = "Smith2020_Deep" ∧
      bib_key "John Smith" "2020" "Deep Learning" ≠
        spec_bib_key "John Smith" "2020" "Deep Learning" := by
  refine ⟨by decide, by decide, by decide⟩

/-- C6 amended: for non-empty author and title fields the generated key is
the capitalized first whitespace token of the author field (usually the
given name as written, not the surname), then the year, an underscore, and
the capitalized first word of the title; uniqueness of persisted keys
(global, hence within a project) is enforced by the database unique
constraint, which rejects a colliding ingest rather than disambiguating. -/
theorem bib_key_spec (author year title : String) (ha : author ≠ "") (ht : title ≠ "") :
    bib_key author year title =
        pyCapitalize (pySplitFirst author) ++ year ++ "_" ++
          pyCapitalize (pySplitFirst title) ∧
      (∀ docs docs2 d, (docs.map DocRec.bibtex_key).Nodup →
        insertDocument docs d = Except.ok docs2 →
          (docs2.map DocRec.bibtex_key).Nodup) := by
  constructor
  · rw [bib_key, if_pos ha, if_pos ht]
  · intro docs docs2 d hnd hins
    rw [insertDocument] at hins
    split at hins
    · cases hins
    · next hnone =>
      cases hins
      rw [List.map_append]
      rw [List.nodup_append]
      refine ⟨hnd, List.nodup_singleton _, ?_⟩
      intro k hk hk2
      simp only [List.map_cons, List.map_nil, List.mem_singleton] at hk2
      subst hk2
      simp only [List.mem_map] at hk
      obtain ⟨d0, hd0, he⟩ := hk
      exact hnone (List.any_eq_true.mpr ⟨d0, hd0, by simp [he]⟩)

/-- Witness for the amended C6 at concrete inputs. -/
theorem bib_key_spec_witness :
    bib_key "John Smith" "2020" "Deep Learning" =
        pyCapitalize (pySplitFirst "John Smith") ++ "2020" ++ "_" ++
          pyCapitalize (pySplitFirst "Deep Learning") ∧
      insertDocument [] ⟨1, "John2020_Deep"⟩ =
        Except.ok [(⟨1, "John2020_Deep"⟩ : DocRec)] ∧
      ([(⟨1, "John2020_Deep"⟩ : DocRec)].map DocRec.bibtex_key).Nodup := by
  have h := bib_key_spec "John Smith" "2020" "Deep Learning" (by decide) (by decide)
  refine ⟨h.1, rfl, ?_⟩
  exact h.2 [] [⟨1, "John2020_Deep"⟩] ⟨1, "John2020_Deep"⟩ (by decide) rfl

/-- The opening curly brace character. -/
def lbrace : Char := Char.ofNat 123

/-- The closing curly brace character. -/
def rbrace : Char := Char.ofNat 125

/-- The backslash character. -/
def bslash : Char := Char.ofNat 92

/-- The double quote character. -/
def dquote : Char := Char.ofNat 34

/-- JSON values as json.loads produces them, over the fragment the system
exchanges: objects, arrays, strings, integer numbers, booleans, null.
Floating-point literals are outside the model (the outline schema uses only
strings, arrays and objects). Python dicts are modelled as the parsed
key-value list in order. -/
inductive JVal where
  | null : JVal
  | bool (b : Bool) : JVal
  | num (n : Int) : JVal
  | str (s : List Char) : JVal
  | arr (xs : List JVal) : JVal
  | obj (kvs : List (List Char × JVal)) : JVal

/-- The whitespace characters json.loads skips between tokens. -/
def isJsonWs (c : Char) : Bool :=
  c = ' ' || c = Char.ofNat 9 || c = Char.ofNat 10 || c = Char.ofNat 13

def skipWs (l : List Char) : List Char :=
  l.dropWhile isJsonWs

/-- The single-character JSON string escapes. -/
def escChar (c : Char) : Option Char :=
  if c = dquote then some dquote
  else if c = bslash then some bslash
  else if c = '/' then some '/'
  else if c = 'b' then some (Char.ofNat 8)
  else if c = 'f' then some (Char.ofNat 12)
  else if c = 'n' then some (Char.ofNat 10)
  else if c = 'r' then some (Char.ofNat 13)
  else if c = 't' then some (Char.ofNat 9)
  else none

def hexVal (c : Char) : Option Nat :=
  if c.isDigit then some (c.toNat - 48)
  else if 'a' ≤ c ∧ c ≤ 'f' then some (c.toNat - 87)
  else if 'A' ≤ c ∧ c ≤ 'F' then some (c.toNat - 55)
  else none

/-- Parse the remainder of a JSON string literal (after the opening quote):
escape sequences translated, raw control characters rejected as json.loads
does in strict mode. Returns the string value and the remaining input. -/
def parseJString : List Char → Option (List Char × List Char)
  | [] => none
  | c :: rest =>
    if c = dquote then some ([], rest)
    else if c = bslash then
      match rest with
      | [] => none
      | e :: rest2 =>
        if e = 'u' then
          match rest2 with
          | h1 :: h2 :: h3 :: h4 :: rest3 =>
            match hexVal h1, hexVal h2, hexVal h3, hexVal h4 with
            | some a, some b, some c2, some d =>
              (parseJString rest3).map (fun p =>
                (Char.ofNat (((a * 16 + b) * 16 + c2) * 16 + d) :: p.1, p.2))
            | _, _, _, _ => none
          | _ => none
        else
          match escChar e with
          | some c2 => (parseJString rest2).map (fun p => (c2 :: p.1, p.2))
          | none => none
    else if c.toNat < 32 then none
    else (parseJString rest).map (fun p => (c :: p.1, p.2))

def digitsToNat : Nat → List Char → Nat × List Char
  | acc, [] => (acc, [])
  | acc, c :: rest =>
    if c.isDigit then digitsToNat (acc * 10 + (c.toNat - 48)) rest else (acc, c :: rest)

/-- Parse an unsigned JSON integer: no leading zeros; a following fraction
or exponent marks a float, which the model does not cover (none). -/
def parseJNumNat : List Char → Option (Nat × List Char)
  | [] => none
  | c :: rest =>
    if c = '0' then
      match rest with
      | c2 :: _ =>
        if c2.isDigit || c2 = '.' || c2 = 'e' || c2 = 'E' then none else some (0, rest)
      | [] => some (0, rest)
    else if c.isDigit then
      match digitsToNat (c.toNat - 48) rest with
      | (n, r) =>
        match r with
        | c2 :: _ => if c2 = '.' || c2 = 'e' || c2 = 'E' then none else some (n, r)
        | [] => some (n, r)
    else none

def parseJNum (l : List Char) : Option (Int × List Char) :=
  match l with
  | c :: rest =>
    if c = '-' then (parseJNumNat rest).map (fun p => (-(p.1 : Int), p.2))
    else (parseJNumNat l).map (fun p => ((p.1 : Int), p.2))
  | [] => none

mutual

/-- Recursive-descent JSON value parser with fuel (one unit per nesting
level and per aggregate member, bounded by the input length). -/
def parseJVal : Nat → List Char → Option (JVal × List Char)
  | 0, _ => none
  | fuel + 1, l =>
    match skipWs l with
    | [] => none
    | c :: rest =>
      if c = lbrace then
        match skipWs rest with
        | c2 :: rest2 =>
          if c2 = rbrace then some (JVal.obj [], rest2)
          else parseJMembers fuel (c2 :: rest2) []
        | [] => none
      else if c = '[' then
        match skipWs rest with
        | c2 :: rest2 =>
          if c2 = ']' then some (JVal.arr [], rest2)
          else parseJElems fuel (c2 :: rest2) []
        | [] => none
      else if c = dquote then
        (parseJString rest).map (fun p => (JVal.str p.1, p.2))
      else if c = 't' then
        match rest with
        | 'r' :: 'u' :: 'e' :: r => some (JVal.bool true, r)
        | _ => none
      else if c = 'f' then
        match rest with
        | 'a' :: 'l' :: 's' :: 'e' :: r => some (JVal.bool false, r)
        | _ => none
      else if c = 'n' then
        match rest with
        | 'u' :: 'l' :: 'l' :: r => some (JVal.null, r)
        | _ => none
      else
        (parseJNum (c :: rest)).map (fun p => (JVal.num p.1, p.2))

/-- Parse the members of an object, positioned at a key (not at whitespace
and not at a closing brace). -/
def parseJMembers : Nat → List Char → List (List Char × JVal) → Option (JVal × List Char)
  | 0, _, _ => none
  | fuel + 1, l, acc =>
    match l with
    | c :: rest =>
      if c = dquote then
        match parseJString rest with
        | some (key, r1) =>
          match skipWs r1 with
          | c2 :: r2 =>
            if c2 = ':' then
              match parseJVal fuel r2 with
              | some (v, r3) =>
                match skipWs r3 with
                | c3 :: r4 =>
                  if c3 = ',' then
                    match skipWs r4 with
                    | c4 :: r5 => parseJMembers fuel (c4 :: r5) (acc ++ [(key, v)])
                    | [] => none
                  else if c3 = rbrace then some (JVal.obj (acc ++ [(key, v)]), r4)
                  else none
                | [] => none
              | none => none
            else none
          | [] => none
        | none => none
      else none
    | [] => none

/-- Parse the elements of an array, positioned at an element. -/
def parseJElems : Nat → List Char → List JVal → Option (JVal × List Char)
  | 0, _, _ => none
  | fuel + 1, l, acc =>
    match parseJVal fuel l with
    | some (v, r1) =>
      match skipWs r1 with
      | c :: r2 =>
        if c = ',' then parseJElems fuel r2 (acc ++ [v])
        else if c = ']' then some (JVal.arr (acc ++ [v]), r2)
        else none
      | [] => none
    | none => none

end

/-- json.loads: the whole input must be one JSON value surrounded only by
whitespace. -/
def json_loads (s : String) : Option JVal :=
  match parseJVal (s.length + 1) s.data with
  | some (v, rest) => if skipWs rest = [] then some v else none
  | none => none

/-- Python s.find(c): the index of the first occurrence (None models -1). -/
def pyFind (c : Char) (l : List Char) : Option Nat :=
  l.findIdx? (fun x => x = c)

/-- Python s.rfind(c): the index of the last occurrence. -/
def pyRfind (c : Char) (l : List Char) : Option Nat :=
  (l.reverse.findIdx? (fun x => x = c)).map (fun j => l.length - 1 - j)

/-- The backslash doubling of _extract_json_from_llm_response (agent_logic.py
line 149): str.replace of a single backslash by two. -/
def doubleBackslashes : List Char → List Char
  | [] => []
  | c :: rest =>
    if c = bslash then bslash :: bslash :: doubleBackslashes rest
    else c :: doubleBackslashes rest

/-- _extract_json_from_llm_response (agent_logic.py lines 136-153): take the
substring from the first opening brace to the last closing brace when the
latter comes strictly later, double every backslash in it, and otherwise
return the raw reply unchanged. -/
def extractCore (raw : List Char) : List Char :=
  match pyFind lbrace raw, pyRfind rbrace raw with
  | some s, some e =>
    if s < e then doubleBackslashes ((raw.drop s).take (e + 1 - s))
    else raw
  | some _, none => raw
  | none, _ => raw

def extract_json_from_llm_response (raw : String) : String :=
  String.mk (extractCore raw.data)

/-- Every maximal run of backslashes has even length. -/
def evenBackslashRuns : List Char → Bool
  | [] => true
  | [c] => !(c = bslash)
  | c :: c2 :: rest =>
    if c = bslash then
      if c2 = bslash then evenBackslashRuns rest else false
    else evenBackslashRuns (c2 :: rest)

/-- C4 counterexample: extraction does not yield the original object, and
does not always yield parseable JSON. For the reply wrapping the well-formed
object with the escape sequence backslash-n, the doubling turns the newline
escape into a literal backslash plus n, a different object; and for a reply
whose object contains an unescaped backslash followed by an escaped quote,
the doubled string no longer parses at all. -/
theorem extract_json_counterexample :
    json_loads "\x7b\x22a\x22: \x22b\x5cnc\x22\x7d" =
        some (JVal.obj [("a".data, JVal.str "b\nc".data)]) ∧
      extract_json_from_llm_response "Sure! \x7b\x22a\x22: \x22b\x5cnc\x22\x7d Done." =
        "\x7b\x22a\x22: \x22b\x5c\x5cnc\x22\x7d" ∧
      json_loads "\x7b\x22a\x22: \x22b\x5c\x5cnc\x22\x7d" =
        some (JVal.obj [("a".data, JVal.str "b\x5cnc".data)]) ∧
      JVal.str "b\nc".data ≠ JVal.str "b\x5cnc".data ∧
      json_loads (extract_json_from_llm_response "\x7b\x22a\x22: \x22x\x5c \x5c\x22y\x22\x7d") =
        none := by
  refine ⟨rfl, rfl, rfl, ?_, rfl⟩
  intro h
  injection h with h2
  exact absurd h2 (by decide)

theorem pyFind_append {c : Char} :
    ∀ {p l : List Char}, c ∉ p → l.head? = some c →
      pyFind c (p ++ l) = some p.length
  | [], l, _, hh => by
    cases l with
    | nil => simp at hh
    | cons x rest =>
      simp only [List.head?_cons, Option.some.injEq] at hh
      subst hh
      simp [pyFind, List.findIdx?_cons]
  | x :: p2, l, hn, hh => by
    have hx : ¬x = c := fun he => hn (by simp [he])
    have hn2 : c ∉ p2 := fun hm => hn (List.mem_cons_of_mem _ hm)
    simp only [List.cons_append, pyFind, List.findIdx?_cons, decide_eq_true_eq, if_neg hx,
      List.findIdx?_succ]
    have := pyFind_append hn2 hh
    rw [pyFind] at this
    rw [this]
    simp

theorem pyRfind_append {p s q : List Char} (hq : rbrace ∉ q)
    (hlast : s.getLast? = some rbrace) :
    pyRfind rbrace (p ++ s ++ q) = some (p.length + s.length - 1) := by
  have hsrev : s.reverse.head? = some rbrace := by
    rw [List.head?_reverse]
    exact hlast
  have hqrev : rbrace ∉ q.reverse := by simpa using hq
  have hh : (s.reverse ++ p.reverse).head? = some rbrace := by
    cases hs : s.reverse with
    | nil => rw [hs] at hsrev; simp at hsrev
    | cons x rest =>
      rw [hs] at hsrev
      simpa using hsrev
  have hfind : pyFind rbrace (q.reverse ++ (s.reverse ++ p.reverse)) =
      some q.reverse.length := pyFind_append hqrev hh
  have hslen : 1 ≤ s.length := by
    cases s with
    | nil => simp at hlast
    | cons x rest => simp
  rw [pyRfind]
  have hrev : (p ++ s ++ q).reverse = q.reverse ++ (s.reverse ++ p.reverse) := by
    simp [List.reverse_append]
  rw [hrev]
  rw [pyFind] at hfind
  rw [hfind]
  simp only [Option.map_some']
  congr 1
  simp only [List.length_append, List.length_reverse]
  omega

theorem doubleBackslashes_id : ∀ {l : List Char}, bslash ∉ l → doubleBackslashes l = l
  | [], _ => rfl
  | c :: rest, hn => by
    have hc : ¬c = bslash := fun he => hn (by simp [he])
    have hr : bslash ∉ rest := fun hm => hn (List.mem_cons_of_mem _ hm)
    rw [doubleBackslashes, if_neg hc, doubleBackslashes_id hr]

theorem evenBackslashRuns_double : ∀ l : List Char,
    evenBackslashRuns (doubleBackslashes l) = true
  | [] => rfl
  | c :: rest => by
    by_cases hc : c = bslash
    · subst hc
      rw [doubleBackslashes, if_pos rfl]
      rw [show evenBackslashRuns (bslash :: bslash :: doubleBackslashes rest) =
        evenBackslashRuns (doubleBackslashes rest) by simp [evenBackslashRuns]]
      exact evenBackslashRuns_double rest
    · rw [doubleBackslashes, if_neg hc]
      cases hd : doubleBackslashes rest with
      | nil => simp [evenBackslashRuns, hc]
      | cons c2 r2 =>
        rw [show evenBackslashRuns (c :: c2 :: r2) = evenBackslashRuns (c2 :: r2) by
          simp [evenBackslashRuns, hc]]
        rw [← hd]
        exact evenBackslashRuns_double rest

/-- C4 amended: when the prose before the object has no opening brace, the
prose after it no closing brace, and the well-formed JSON object contains no
backslash at all, extraction yields exactly that object after parsing. When
the reply does contain a brace pair, every maximal backslash run of the
extracted string has even length - but the extracted string need not parse
(a backslash before a quote breaks it), and escape sequences inside a
well-formed object denote different values after the doubling, so the
original claim holds only in the backslash-free case. -/
theorem extract_json_spec (pre s post : String) (v : JVal)
    (hpre : lbrace ∉ pre.data) (hpost : rbrace ∉ post.data)
    (hhead : s.data.head? = some lbrace) (hlast : s.data.getLast? = some rbrace)
    (hnb : bslash ∉ s.data) (hparse : json_loads s = some v) :
    json_loads (extract_json_from_llm_response (pre ++ s ++ post)) = some v ∧
      (∀ (raw : String) (i j : Nat), pyFind lbrace raw.data = some i →
        pyRfind rbrace raw.data = some j → i < j →
        evenBackslashRuns (extract_json_from_llm_response raw).data = true) := by
  constructor
  · have hdata : (pre ++ s ++ post).data = pre.data ++ s.data ++ post.data := by
      simp [String.data_append]
    have hslen : 2 ≤ s.data.length := by
      cases hs : s.data with
      | nil => rw [hs] at hhead; simp at hhead
      | cons c1 rest =>
        cases rest with
        | nil =>
          rw [hs] at hhead hlast
          simp only [List.head?_cons, Option.some.injEq] at hhead
          simp only [List.getLast?_singleton, Option.some.injEq] at hlast
          subst hhead
          exact absurd hlast (by decide)
        | cons c2 rest2 => simp
    have hh2 : (s.data ++ post.data).head? = some lbrace := by
      cases hs : s.data with
      | nil => rw [hs] at hhead; simp at hhead
      | cons c1 rest =>
        rw [hs] at hhead
        simpa using hhead
    have hfind : pyFind lbrace (pre.data ++ s.data ++ post.data) = some pre.data.length := by
      rw [List.append_assoc]
      exact pyFind_append hpre hh2
    have hrfind : pyRfind rbrace (pre.data ++ s.data ++ post.data) =
        some (pre.data.length + s.data.length - 1) := pyRfind_append hpost hlast
    have hcore : extractCore (pre.data ++ s.data ++ post.data) = s.data := by
      simp only [extractCore, hfind, hrfind]
      rw [if_pos (by omega)]
      have hdrop : ((pre.data ++ s.data ++ post.data).drop pre.data.length) =
          s.data ++ post.data := by
        rw [List.append_assoc]
        exact List.drop_left _ _
      rw [hdrop]
      have htake : (s.data ++ post.data).take (pre.data.length + s.data.length - 1 + 1 -
          pre.data.length) = s.data := by
        rw [show pre.data.length + s.data.length - 1 + 1 - pre.data.length =
          s.data.length by omega]
        exact List.take_left _ _
      rw [htake, doubleBackslashes_id hnb]
    have hext : extract_json_from_llm_response (pre ++ s ++ post) = s := by
      rw [extract_json_from_llm_response, hdata, hcore]
    rw [hext]
    exact hparse
  · intro raw i j hfind hrfind hij
    rw [extract_json_from_llm_response]
    simp only [extractCore, hfind, hrfind]
    rw [if_pos hij]
    exact evenBackslashRuns_double _

/-- Witness for the amended C4 at concrete inputs. -/
theorem extract_json_spec_witness :
    json_loads (extract_json_from_llm_response
        ("Sure! " ++ "\x7b\x22a\x22: 1\x7d" ++ " ok")) =
      some (JVal.obj [("a".data, JVal.num 1)]) ∧
      evenBackslashRuns (extract_json_from_llm_response "\x7b\x5ca\x7d").data = true := by
  have h := extract_json_spec "Sure! " "\x7b\x22a\x22: 1\x7d" " ok"
    (JVal.obj [("a".data, JVal.num 1)]) (by decide) (by decide) (by decide) (by decide)
    (by decide) rfl
  exact ⟨h.1, h.2 "\x7b\x5ca\x7d" 0 3 rfl rfl (by decide)⟩

/-- The single quote character (for Python exception texts). -/
def sq : String := String.mk [Char.ofNat 39]

/-- The Task row, reduced to the fields the orchestrator mutates
(models.py lines 88-104). -/
structure TaskRec where
  status : String
  status_message : Option String
  outline_json : Option String
  final_markdown_content : Option String
  final_content : Option String
deriving DecidableEq, Repr

/-- update_task_status (agent_logic.py lines 57-64): set the status, and set
the message only when it is truthy - a None or empty message leaves the
previous message in place. -/
def update_task_status (t : TaskRec) (status : String) (message : Option String) : TaskRec :=
  { t with
    status := status,
    status_message :=
      match message with
      | some m => if m ≠ "" then some m else t.status_message
      | none => t.status_message }

/-- The outcomes of the external calls run_report_writing_task makes: the
context gathering (which may raise, for example the not-found RuntimeError),
the outline chat, the per-section chats, the bibliography file write, and
the pandoc invocation. -/
structure AgentOracle where
  gather : Except String String
  outline_chat : Except String String
  section_chat : Nat → Except String String
  bib_write : Except String Unit
  pandoc : String → Except String String

/-- The task state together with the trace of statuses set so far. -/
structure RunSt where
  task : TaskRec
  trace : List String
deriving DecidableEq, Repr

def setStatus (st : RunSt) (s : String) (m : Option String) : RunSt :=
  ⟨update_task_status st.task s m, st.trace ++ [s]⟩

/-- Python truthiness of a JSON value. -/
def jfalsy : JVal → Bool
  | JVal.null => true
  | JVal.bool b => !b
  | JVal.num n => n = 0
  | JVal.str s => s.isEmpty
  | JVal.arr xs => xs.isEmpty
  | JVal.obj kvs => kvs.isEmpty

/-- Python dict lookup on a parsed JSON object, the last binding winning as
json.loads dict construction does. -/
def jObjGet (kvs : List (List Char × JVal)) (k : List Char) : Option JVal :=
  (kvs.reverse.find? (fun e => e.1 = k)).map Prod.snd

/-- The outline-parsing step of run_report_writing_task (agent_logic.py
lines 185-198): json.loads on the cleaned string - a decode failure is
caught and re-raised as the fixed ValueError message - then
outline.get with the sections key and default empty list (a non-dict value
raises an AttributeError, whose message is modelled), and the falsy check
raising the empty-outline ValueError with its exact source message. -/
def getSectionsVal (cleaned : String) : Except String JVal :=
  match json_loads cleaned with
  | none =>
    Except.error
      "The language model failed to return a valid JSON object for the report outline."
  | some (JVal.obj kvs) =>
    let sections := (jObjGet kvs "sections".data).getD (JVal.arr [])
    if jfalsy sections then
      Except.error
        ("LLM returned valid JSON, but the " ++ sq ++ "sections" ++ sq ++
          " array is missing or empty.")
    else Except.ok sections
  | some _ => Except.error "object has no attribute get"

/-- Python iteration over the sections value (len and enumerate, agent_logic
lines 206-208): a list yields its elements, a string its characters, a dict
its keys; other values raise a TypeError (message modelled). -/
def asList : JVal → Except String (List JVal)
  | JVal.arr xs => Except.ok xs
  | JVal.str s => Except.ok (s.map (fun c => JVal.str [c]))
  | JVal.obj kvs => Except.ok (kvs.map (fun e => JVal.str e.1))
  | _ => Except.error "object is not iterable"

/-- Python subscript s[k] on a parsed JSON value: a missing key raises
KeyError (whose str is the quoted key); non-dict values raise a TypeError
(message modelled). -/
def jGetItem (v : JVal) (k : String) : Except String JVal :=
  match v with
  | JVal.obj kvs =>
    match jObjGet kvs k.data with
    | some x => Except.ok x
    | none => Except.error (sq ++ k ++ sq)
  | JVal.str _ => Except.error "string indices must be integers"
  | JVal.arr _ => Except.error "list indices must be integers"
  | _ => Except.error "value is not subscriptable"

/-- Python str() of a parsed JSON value, as the f-strings building the
running report context interpolate it (container renderings modelled). -/
def jToString : JVal → String
  | JVal.str s => String.mk s
  | JVal.num n => toString n
  | JVal.bool b => if b then "True" else "False"
  | JVal.null => "None"
  | JVal.arr _ => "list"
  | JVal.obj _ => "dict"

/-- The subscript accesses performed while building the running report
context at outer iteration i (agent_logic.py lines 212-219): every section
has its title read; sections at or after i also have their description
read; the first failing access raises. -/
def sectionAccessGo (i : Nat) : List JVal → Nat → Except String Unit
  | [], _ => Except.ok ()
  | s :: rest, j =>
    match jGetItem s "title" with
    | Except.error e => Except.error e
    | Except.ok _ =>
      if j < i then sectionAccessGo i rest (j + 1)
      else
        match jGetItem s "description" with
        | Except.error e => Except.error e
        | Except.ok _ => sectionAccessGo i rest (j + 1)

def sectionAccessCheck (secs : List JVal) (i : Nat) : Except String Unit :=
  sectionAccessGo i secs 0

/-- The section-writing loop (agent_logic.py lines 208-234): per section,
set the writing_section_i_of_n status, build the running context (whose
subscript accesses may raise), invoke the chat, and accumulate the
markdown part for the section. -/
def writeSections (o : AgentOracle) (secs : List JVal) (total : Nat) :
    List JVal → Nat → List String → RunSt → RunSt × Except String (List String)
  | [], _, parts, st => (st, Except.ok parts)
  | sec :: rest, i, parts, st =>
    let st1 := setStatus st
      ("writing_section_" ++ toString (i + 1) ++ "_of_" ++ toString total) none
    match sectionAccessCheck secs i with
    | Except.error e => (st1, Except.error e)
    | Except.ok _ =>
      match o.section_chat i with
      | Except.error e => (st1, Except.error e)
      | Except.ok content =>
        match jGetItem sec "title" with
        | Except.error e => (st1, Except.error e)
        | Except.ok titleV =>
          writeSections o secs total rest (i + 1)
            (parts ++ ["## " ++ jToString titleV ++ "\n" ++ content ++ "\n"]) st1

/-- The assembling stage of run_report_writing_task (agent_logic.py lines
203-272): the section loop, the assembling_report status, the markdown
commit, the bibliography write, the pandoc call, the final commit and the
complete status; the state reached is returned with the message of the
raised exception, if any. -/
def runSections (o : AgentOracle) (secs : List JVal) (st3 : RunSt) : RunSt × Option String :=
  match writeSections o secs secs.length secs 0 [] st3 with
  | (st4, Except.error e) => (st4, some e)
  | (st4, Except.ok parts) =>
    let st5 := setStatus st4 "assembling_report" none
    let st6 : RunSt :=
      ⟨{ st5.task with final_markdown_content := some (String.intercalate "\n" parts) },
        st5.trace⟩
    match o.bib_write with
    | Except.error e => (st6, some e)
    | Except.ok _ =>
      match o.pandoc (String.intercalate "\n" parts) with
      | Except.error e => (st6, some e)
      | Except.ok latex =>
        (setStatus ⟨{ st6.task with final_content := some latex }, st6.trace⟩ "complete" none,
          none)

/-- The outline stage (agent_logic.py lines 177-208): clean the raw chat
reply, parse it, commit the outline string (task.outline_json, committed
immediately after the parse and before the sections are enumerated), then
enumerate the sections and continue with the section loop. -/
def runOutline (o : AgentOracle) (raw : String) (st2 : RunSt) : RunSt × Option String :=
  match getSectionsVal (extract_json_from_llm_response raw) with
  | Except.error e => (st2, some e)
  | Except.ok sval =>
    match asList sval with
    | Except.error e =>
      (⟨{ st2.task with outline_json := some (extract_json_from_llm_response raw) },
        st2.trace⟩, some e)
    | Except.ok secs =>
      runSections o secs
        ⟨{ st2.task with outline_json := some (extract_json_from_llm_response raw) },
          st2.trace⟩

/-- The try body of run_report_writing_task (agent_logic.py lines 158-275):
status updates interleaved with the external calls; each db.session.commit
of an artifact is modelled as the field update at the same program point. -/
def runBody (o : AgentOracle) (st : RunSt) : RunSt × Option String :=
  match o.gather with
  | Except.error e => (setStatus st "gathering_context" none, some e)
  | Except.ok _ =>
    match o.outline_chat with
    | Except.error e =>
      (setStatus (setStatus st "gathering_context" none) "generating_outline" none, some e)
    | Except.ok raw =>
      runOutline o raw
        (setStatus (setStatus st "gathering_context" none) "generating_outline" none)

/-- run_report_writing_task (agent_logic.py lines 155-279): run the body
and, on an exception, transition to failed with str(e) as the message. -/
def run_report_writing_task (o : AgentOracle) (t0 : TaskRec) : RunSt :=
  match runBody o ⟨t0, []⟩ with
  | (st, none) => st
  | (st, some e) => setStatus st "failed" (some e)

theorem writeSections_fields (o : AgentOracle) (secs : List JVal) (total : Nat) :
    ∀ (rest : List JVal) (i : Nat) (parts : List String) (st : RunSt),
      ((writeSections o secs total rest i parts st).1).task.status_message =
          st.task.status_message ∧
        ((writeSections o secs total rest i parts st).1).task.outline_json =
          st.task.outline_json ∧
        ((writeSections o secs total rest i parts st).1).task.final_markdown_content =
          st.task.final_markdown_content ∧
        ((writeSections o secs total rest i parts st).1).task.final_content =
          st.task.final_content
  | [], _, _, _ => ⟨rfl, rfl, rfl, rfl⟩
  | sec :: rest, i, parts, st => by
    rw [writeSections]
    cases sectionAccessCheck secs i with
    | error e => exact ⟨rfl, rfl, rfl, rfl⟩
    | ok _ =>
      cases o.section_chat i with
      | error e => exact ⟨rfl, rfl, rfl, rfl⟩
      | ok content =>
        cases jGetItem sec "title" with
        | error e => exact ⟨rfl, rfl, rfl, rfl⟩
        | ok titleV => exact writeSections_fields o secs total rest (i + 1) _ _

theorem runSections_fields (o : AgentOracle) (secs : List JVal) (st3 : RunSt) :
    ((runSections o secs st3).1).task.status_message = st3.task.status_message ∧
      ((runSections o secs st3).1).task.outline_json = st3.task.outline_json := by
  rw [runSections]
  cases hws : writeSections o secs secs.length secs 0 [] st3 with
  | mk st4 res =>
    have hw := writeSections_fields o secs secs.length secs 0 [] st3
    rw [hws] at hw
    cases res with
    | error e => exact ⟨hw.1, hw.2.1⟩
    | ok parts =>
      dsimp only []
      cases o.bib_write with
      | error e => exact ⟨hw.1, hw.2.1⟩
      | ok u =>
        dsimp only []
        cases o.pandoc (String.intercalate "\n" parts) with
        | error e => exact ⟨hw.1, hw.2.1⟩
        | ok latex => exact ⟨hw.1, hw.2.1⟩

theorem runOutline_outline (o : AgentOracle) (raw : String) (st2 : RunSt)
    (hs : ∃ sval, getSectionsVal (extract_json_from_llm_response raw) = Except.ok sval) :
    ((runOutline o raw st2).1).task.outline_json =
      some (extract_json_from_llm_response raw) := by
  obtain ⟨sval, hsv⟩ := hs
  rw [runOutline, hsv]
  dsimp only []
  cases asList sval with
  | error e => rfl
  | ok secs =>
    dsimp only []
    have h2 := (runSections_fields o secs
      ⟨{ st2.task with outline_json := some (extract_json_from_llm_response raw) },
        st2.trace⟩).2
    rw [h2]

theorem runBody_message (o : AgentOracle) (t0 : TaskRec) :
    ((runBody o ⟨t0, []⟩).1).task.status_message = t0.status_message := by
  rw [runBody]
  cases o.gather with
  | error e => rfl
  | ok ctx =>
    dsimp only []
    cases o.outline_chat with
    | error e => rfl
    | ok raw =>
      dsimp only []
      rw [runOutline]
      cases getSectionsVal (extract_json_from_llm_response raw) with
      | error e => rfl
      | ok sval =>
        dsimp only []
        cases asList sval with
        | error e => rfl
        | ok secs =>
          dsimp only []
          rw [(runSections_fields o secs _).1]
          rfl

/-- C3 counterexample: when a step raises an exception whose message is the
empty string, the Task does transition to failed but the message is NOT
recorded - update_task_status only stores truthy messages - so the status
message keeps its previous value (here None) instead of the exception text. -/
theorem run_failure_empty_message :
    (run_report_writing_task
        ⟨Except.error "", Except.ok "", fun _ => Except.ok "", Except.ok (),
          fun _ => Except.ok ""⟩
        ⟨"queued", none, none, none, none⟩).task.status = "failed" ∧
      (run_report_writing_task
          ⟨Except.error "", Except.ok "", fun _ => Except.ok "", Except.ok (),
            fun _ => Except.ok ""⟩
          ⟨"queued", none, none, none, none⟩).task.status_message = none ∧
      (none : Option String) ≠ some "" := by
  refine ⟨rfl, rfl, by decide⟩

/-- C3 amended: when any step of a run raises an uncaught exception, the
Task transitions to failed, and the exception message is recorded as the
status message when it is non-empty (an empty message leaves the previous
status message in place); every artifact persisted before the failure is
preserved: once the outline parse succeeds the outline stays stored through
any later failure, and once the section loop completes the assembled
markdown stays stored through a bibliography-write or pandoc failure. -/
theorem run_failure_spec (o : AgentOracle) (t0 : TaskRec) :
    (∀ e, (runBody o ⟨t0, []⟩).2 = some e →
        (run_report_writing_task o t0).task.status = "failed" ∧
          (run_report_writing_task o t0).task.status_message =
            (if e = "" then t0.status_message else some e) ∧
          (run_report_writing_task o t0).task.outline_json =
            ((runBody o ⟨t0, []⟩).1).task.outline_json ∧
          (run_report_writing_task o t0).task.final_markdown_content =
            ((runBody o ⟨t0, []⟩).1).task.final_markdown_content) ∧
      (∀ ctx raw sval, o.gather = Except.ok ctx → o.outline_chat = Except.ok raw →
        getSectionsVal (extract_json_from_llm_response raw) = Except.ok sval →
          (run_report_writing_task o t0).task.outline_json =
            some (extract_json_from_llm_response raw)) := by
  constructor
  · intro e he
    rw [run_report_writing_task]
    cases hb : runBody o ⟨t0, []⟩ with
    | mk st exc =>
      rw [hb] at he
      simp only at he
      subst he
      refine ⟨rfl, ?_, rfl, rfl⟩
      have hmsg : st.task.status_message = t0.status_message := by
        have h3 := runBody_message o t0
        rw [hb] at h3
        exact h3
      show (if e ≠ "" then some e else st.task.status_message) =
        (if e = "" then t0.status_message else some e)
      by_cases hne : e = ""
      · subst hne
        rw [if_neg (fun h => h rfl), if_pos rfl]
        exact hmsg
      · rw [if_pos hne, if_neg hne]
  · intro ctx raw sval hg hc hs
    rw [run_report_writing_task, runBody, hg, hc]
    dsimp only []
    have hout := runOutline_outline o raw
      (setStatus (setStatus ⟨t0, []⟩ "gathering_context" none) "generating_outline" none)
      ⟨sval, hs⟩
    cases hro : runOutline o raw
        (setStatus (setStatus ⟨t0, []⟩ "gathering_context" none)
          "generating_outline" none) with
    | mk stR exc =>
      rw [hro] at hout
      cases exc with
      | none => exact hout
      | some e => exact hout

/-- Witness for the amended C3: a run whose pandoc call fails ends failed
with the pandoc message recorded, while the outline persisted earlier in
the run survives. -/
theorem run_failure_spec_witness :
    ((runBody
        ⟨Except.ok "ctx",
          Except.ok
            "\x7b\x22sections\x22: [\x7b\x22title\x22: \x22A\x22, \x22description\x22: \x22d\x22\x7d]\x7d",
          fun _ => Except.ok "body", Except.ok (), fun _ => Except.error "pandoc failed"⟩
        ⟨⟨"queued", none, none, none, none⟩, []⟩).2 = some "pandoc failed") ∧
      (run_report_writing_task
        ⟨Except.ok "ctx",
          Except.ok
            "\x7b\x22sections\x22: [\x7b\x22title\x22: \x22A\x22, \x22description\x22: \x22d\x22\x7d]\x7d",
          fun _ => Except.ok "body", Except.ok (), fun _ => Except.error "pandoc failed"⟩
        ⟨"queued", none, none, none, none⟩).task.status = "failed" ∧
      (run_report_writing_task
        ⟨Except.ok "ctx",
          Except.ok
            "\x7b\x22sections\x22: [\x7b\x22title\x22: \x22A\x22, \x22description\x22: \x22d\x22\x7d]\x7d",
          fun _ => Except.ok "body", Except.ok (), fun _ => Except.error "pandoc failed"⟩
        ⟨"queued", none, none, none, none⟩).task.status_message = some "pandoc failed" ∧
      (run_report_writing_task
        ⟨Except.ok "ctx",
          Except.ok
            "\x7b\x22sections\x22: [\x7b\x22title\x22: \x22A\x22, \x22description\x22: \x22d\x22\x7d]\x7d",
          fun _ => Except.ok "body", Except.ok (), fun _ => Except.error "pandoc failed"⟩
        ⟨"queued", none, none, none, none⟩).task.outline_json =
        some (extract_json_from_llm_response
          "\x7b\x22sections\x22: [\x7b\x22title\x22: \x22A\x22, \x22description\x22: \x22d\x22\x7d]\x7d") := by
  have hb : (runBody
      ⟨Except.ok "ctx",
        Except.ok
          "\x7b\x22sections\x22: [\x7b\x22title\x22: \x22A\x22, \x22description\x22: \x22d\x22\x7d]\x7d",
        fun _ => Except.ok "body", Except.ok (), fun _ => Except.error "pandoc failed"⟩
      ⟨⟨"queued", none, none, none, none⟩, []⟩).2 = some "pandoc failed" := rfl
  have h := run_failure_spec
    ⟨Except.ok "ctx",
      Except.ok
        "\x7b\x22sections\x22: [\x7b\x22title\x22: \x22A\x22, \x22description\x22: \x22d\x22\x7d]\x7d",
      fun _ => Except.ok "body", Except.ok (), fun _ => Except.error "pandoc failed"⟩
    ⟨"queued", none, none, none, none⟩
  have h1 := h.1 "pandoc failed" hb
  have h2 := h.2 "ctx"
    "\x7b\x22sections\x22: [\x7b\x22title\x22: \x22A\x22, \x22description\x22: \x22d\x22\x7d]\x7d"
    (JVal.arr [JVal.obj [("title".data, JVal.str "A".data),
      ("description".data, JVal.str "d".data)]])
    rfl rfl rfl
  exact ⟨hb, h1.1, by rw [h1.2.1]; rfl, h2⟩

/-- Python str.startswith. -/
def pyStartswith (s p : String) : Bool :=
  p.data.isPrefixOf s.data

/-- The statuses the orchestrator sets while a run is active, before a
terminal complete or failed status (agent_logic.py lines 165, 168, 209,
237). -/
def inProgressStatus (s : String) : Bool :=
  s = "gathering_context" || s = "generating_outline" ||
    pyStartswith s "writing_section_" || s = "assembling_report"

/-- The re-entrancy guard of the run_task route (routes.py lines 290-291). -/
def run_task_guard (status : String) : Bool :=
  pyStartswith status "writing" || pyStartswith status "generating"

/-- The observable outcome of POST /api/tasks/id/run for a report_writing
task (routes.py lines 286-302): 409 when the guard fires, else the
background thread is started and 202 returned. -/
inductive RunTaskResult where
  | conflict409 : RunTaskResult
  | accepted202 : RunTaskResult
deriving DecidableEq, Repr

def run_task (status : String) : RunTaskResult :=
  if run_task_guard status then RunTaskResult.conflict409 else RunTaskResult.accepted202

/-- C2 counterexample: a Task whose status is gathering_context or
assembling_report is in an in-progress run (the orchestrator sets
gathering_context as the first act of every run, as the trace shows), yet
run_task does not refuse it: the guard only checks the writing and
generating prefixes, so a second concurrent execution of the same Task can
be started. -/
theorem run_task_accepts_running_task :
    inProgressStatus "gathering_context" = true ∧
      (run_report_writing_task
          ⟨Except.error "x", Except.ok "", fun _ => Except.ok "", Except.ok (),
            fun _ => Except.ok ""⟩
          ⟨"queued", none, none, none, none⟩).trace.head? = some "gathering_context" ∧
      run_task "gathering_context" = RunTaskResult.accepted202 ∧
      inProgressStatus "assembling_report" = true ∧
      run_task "assembling_report" = RunTaskResult.accepted202 := by
  refine ⟨by decide, rfl, by decide, by decide, by decide⟩

/-- C2 amended: the run_task route refuses exactly the statuses starting
with writing or generating: generating_outline and every
writing_section_i_of_n state are rejected with the 409 state conflict,
while queued, complete, failed - and notably the in-run statuses
gathering_context and assembling_report - are accepted. -/
theorem run_task_guard_spec :
    (∀ s, run_task s = RunTaskResult.conflict409 ↔ run_task_guard s = true) ∧
      run_task "generating_outline" = RunTaskResult.conflict409 ∧
      (∀ i n : Nat,
        run_task ("writing_section_" ++ toString i ++ "_of_" ++ toString n) =
          RunTaskResult.conflict409) ∧
      run_task "queued" = RunTaskResult.accepted202 ∧
      run_task "gathering_context" = RunTaskResult.accepted202 ∧
      run_task "assembling_report" = RunTaskResult.accepted202 ∧
      run_task "complete" = RunTaskResult.accepted202 ∧
      run_task "failed" = RunTaskResult.accepted202 := by
  refine ⟨?_, by decide, ?_, by decide, by decide, by decide, by decide, by decide⟩
  · intro s
    rw [run_task]
    constructor
    · intro h
      by_cases hg : run_task_guard s = true
      · exact hg
      · rw [if_neg hg] at h
        cases h
    · intro h
      rw [if_pos h]
  · intro i n
    rw [run_task, if_pos]
    rw [run_task_guard]
    have hp : ("writing".data).IsPrefix
        (("writing_section_" ++ toString i ++ "_of_" ++ toString n).data) := by
      have h1 : ("writing".data).IsPrefix ("writing_section_".data) := ⟨"_section_".data, rfl⟩
      simp only [String.data_append]
      exact (h1.trans (List.prefix_append _ _)).trans (List.prefix_append _ _)
    have hps : pyStartswith ("writing_section_" ++ toString i ++ "_of_" ++ toString n)
        "writing" = true := by
      rw [pyStartswith]
      rw [ List.isPrefixOf_iff_prefix]
      exact hp
    rw [hps]
    simp

/-- Witness for the amended C2: a concrete writing-section status is
refused. -/
theorem run_task_guard_spec_witness :
    run_task "writing_section_2_of_3" = RunTaskResult.conflict409 ∧
      run_task "queued" = RunTaskResult.accepted202 := by
  have h := run_task_guard_spec
  have h1 := h.2.2.1 2 3
  exact ⟨by simpa using h1, h.2.2.2.1⟩

end Researcher
